import Mathlib

/-!
Verification development for the `GraphStore` component of the
`lance-embedder` repository (`src/lib/graph-store.ts`).

The store persists pairs of (chunk metadata, fixed-dimension embedding
vector) in numbered batches.  We give a shallow embedding of the store:

* the two process-wide caches (`chunksCache`, `embeddingsCache`, JS `Map`s
  keyed by batch number) are modelled as association lists that mirror the
  `Map` semantics: `set` on an existing key replaces the value in place
  (keeping its position in insertion order), `set` on a new key appends at
  the end, and `keys()` iterates in insertion order;
* the on-disk directory tree is modelled as association lists from batch
  number to file content (`chunks/batch-NNNN.json` holds the parsed chunk
  list or a marker for an unparseable file; `embeddings/batch-NNNN.bin`
  holds raw bytes), plus optional `config.json` / `index.json` contents;
* IEEE-754 single-precision floats are modelled by their 32-bit patterns
  (`Nat`, intended `< 2^32`): the codec never performs float arithmetic,
  it only serialises the 4 bytes of each value, so the bit pattern is the
  faithful observable;
* timestamps (`createdAt` / `updatedAt` / `lastUpdated`) are wall-clock
  values irrelevant to every property below and are omitted from the
  records.

The source field `cacheAccessOrder` is declared but never read or written
in `graph-store.ts`; eviction order is `Map` insertion order, which the
association lists capture.
-/

/-- Chunks per batch file (`BATCH_SIZE` in the source). -/
def BATCH_SIZE : Nat := 1000

/-- Maximum batches to keep in memory (`MAX_CACHED_BATCHES` in the source). -/
def MAX_CACHED_BATCHES : Nat := 5

/-- One text unit, as persisted in a chunk batch file (`GraphChunkData`). -/
structure GraphChunkData where
  id : String
  text : String
  source : String
  chunkIndex : Nat
  deriving DecidableEq, Repr

/-- An embedding vector: the 32-bit patterns of its float32 entries. -/
abbrev Embedding := List Nat

/-- Contents of `config.json` (timestamps omitted, see the header comment). -/
structure GraphConfig where
  version : String
  dimension : Nat
  threshold : Rat
  deriving DecidableEq, Repr

/-- Contents of `index.json` (timestamp omitted). -/
structure GraphIndex where
  chunkCount : Nat
  batchSize : Nat
  deriving DecidableEq, Repr

/-- Content of a chunk batch file on disk: either a file that parses to a
chunk list, or a file whose JSON does not parse (`JSON.parse` throws). -/
inductive ChunkFile where
  | parseable (chunks : List GraphChunkData)
  | malformed
  deriving DecidableEq, Repr

namespace JMap

/-- First value stored under key `k` (JS `Map.get`). -/
def get {α : Type} : List (Nat × α) → Nat → Option α
  | [], _ => none
  | kv :: m, k => if kv.1 = k then some kv.2 else get m k

/-- JS `Map.set`: replace in place if the key is present (keeping its
position in insertion order), else append at the end. -/
def set {α : Type} : List (Nat × α) → Nat → α → List (Nat × α)
  | [], k, v => [(k, v)]
  | kv :: m, k, v => if kv.1 = k then (k, v) :: m else kv :: set m k v

/-- JS `Map.delete`: remove the entry with key `k` (first occurrence). -/
def erase {α : Type} : List (Nat × α) → Nat → List (Nat × α)
  | [], _ => []
  | kv :: m, k => if kv.1 = k then m else kv :: erase m k

/-- JS `Map.keys()`, in insertion order. -/
def keys {α : Type} (m : List (Nat × α)) : List Nat := m.map Prod.fst

end JMap

/-- The on-disk directory tree rooted at `graph-data/`. -/
structure Disk where
  chunkFiles : List (Nat × ChunkFile)
  embFiles : List (Nat × List Nat)
  configFile : Option GraphConfig
  indexFile : Option GraphIndex
  deriving DecidableEq, Repr

/-- In-memory state of a `GraphStore` instance together with its disk. -/
structure StoreState where
  config : GraphConfig
  index : GraphIndex
  chunksCache : List (Nat × List GraphChunkData)
  embeddingsCache : List (Nat × List Embedding)
  disk : Disk
  deriving DecidableEq, Repr

/-- The 4 little-endian bytes of a 32-bit value (used both by
`writeUInt32LE` for the count and by `writeFloatLE` for each float32 bit
pattern). -/
def bytesLE4 (n : Nat) : List Nat :=
  [n % 256, n / 256 % 256, n / 65536 % 256, n / 16777216 % 256]

/-- Buffer.readUInt32LE at offset 0: needs at least 4 bytes, otherwise the
source throws a `RangeError` (modelled as `none`). -/
def readU32LE : List Nat → Option Nat
  | b0 :: b1 :: b2 :: b3 :: _ => some (b0 + 256 * b1 + 65536 * b2 + 16777216 * b3)
  | _ => none

/-- Buffer.readFloatLE: read one float32 bit pattern and return the rest of
the buffer; fewer than 4 bytes left means a `RangeError` (`none`). -/
def readF32 : List Nat → Option (Nat × List Nat)
  | b0 :: b1 :: b2 :: b3 :: rest =>
      some (b0 + 256 * b1 + 65536 * b2 + 16777216 * b3, rest)
  | _ => none

/-- Read one vector of `dim` floats (inner loop of `decodeEmbeddings`). -/
def readVec : Nat → List Nat → Option (Embedding × List Nat)
  | 0, bs => some ([], bs)
  | d + 1, bs =>
      match readF32 bs with
      | none => none
      | some (v, bs1) =>
          match readVec d bs1 with
          | none => none
          | some (vs, bs2) => some (v :: vs, bs2)

/-- Read `count` vectors of `dim` floats (outer loop of `decodeEmbeddings`).
Trailing bytes after the declared content are ignored, as in the source. -/
def readVecs : Nat → Nat → List Nat → Option (List Embedding)
  | 0, _, _ => some []
  | c + 1, dim, bs =>
      match readVec dim bs with
      | none => none
      | some (v, bs1) =>
          match readVecs c dim bs1 with
          | none => none
          | some (vs) => some (v :: vs)

/-- `encodeEmbeddings`: `[count: uint32 LE] [embedding1: float32 LE xN] ...`.
The source uses `dimension` only to size the buffer (`4 + count*dimension*4`
bytes); for vectors of exactly `dimension` entries — the store's data-model
invariant — the written bytes are exactly the count followed by every value,
which is what we emit.  The parameter is kept to mirror the source. -/
def encodeEmbeddings (dimension : Nat) (embeddings : List Embedding) : List Nat :=
  bytesLE4 embeddings.length ++ embeddings.flatMap (fun e => e.flatMap bytesLE4)

/-- `decodeEmbeddings`: read the count, then `count` vectors of `dimension`
floats.  Any out-of-range read throws in the source (caught by the caller);
here it yields `none`. -/
def decodeEmbeddings (buffer : List Nat) (dimension : Nat) : Option (List Embedding) :=
  match readU32LE buffer with
  | none => none
  | some count => readVecs count dimension (buffer.drop 4)

/-- Math.ceil(n / s) for the non-negative integers that appear here. -/
def ceilDiv (n s : Nat) : Nat := (n + s - 1) / s

/-- The slice of the global record sequence held by batch `b` (records
`[b*BATCH_SIZE, (b+1)*BATCH_SIZE)`); `List.take` truncates at the end of
the list exactly as `Array.prototype.slice` does. -/
def sliceAt {α : Type} (xs : List α) (b : Nat) : List α :=
  (xs.drop (b * BATCH_SIZE)).take BATCH_SIZE

namespace GraphStore

/-- getBatchNumber: `Math.floor(globalIndex / BATCH_SIZE)`. -/
def getBatchNumber (globalIndex : Nat) : Nat := globalIndex / BATCH_SIZE

/-- createEmptyConfig (timestamps omitted). -/
def createEmptyConfig : GraphConfig :=
  { version := "1.0", dimension := 0, threshold := (7 : Rat) / 10 }

/-- createEmptyIndex (timestamp omitted). -/
def createEmptyIndex : GraphIndex :=
  { chunkCount := 0, batchSize := BATCH_SIZE }

/-- loadConfig: read `config.json` if present; a version other than "1.0"
resets to the empty config (an unparseable file would too). -/
def loadConfig (d : Disk) : GraphConfig :=
  match d.configFile with
  | some config => if config.version = "1.0" then config else createEmptyConfig
  | none => createEmptyConfig

/-- loadIndex: read `index.json` if present, else the empty index. -/
def loadIndex (d : Disk) : GraphIndex :=
  match d.indexFile with
  | some i => i
  | none => createEmptyIndex

/-- The constructor: a fresh `GraphStore` instance over an existing disk
(`ensureDirectories` + `loadConfig` + `loadIndex`); caches start empty. -/
def openStore (d : Disk) : StoreState :=
  { config := loadConfig d, index := loadIndex d,
    chunksCache := [], embeddingsCache := [], disk := d }

/-- A store freshly constructed over an empty output directory. -/
def initialState : StoreState :=
  openStore { chunkFiles := [], embFiles := [], configFile := none, indexFile := none }

/-- saveConfig: persist the in-memory config to `config.json`. -/
def saveConfig (st : StoreState) : StoreState :=
  { st with disk := { st.disk with configFile := some st.config } }

/-- saveIndex: persist the in-memory index to `index.json`. -/
def saveIndex (st : StoreState) : StoreState :=
  { st with disk := { st.disk with indexFile := some st.index } }

/-- setConfig: update dimension and threshold, then persist immediately. -/
def setConfig (dimension : Nat) (threshold : Rat) (st : StoreState) : StoreState :=
  saveConfig { st with config := { st.config with dimension := dimension, threshold := threshold } }

/-- loadChunkBatch: cache first, then disk; a missing or unparseable file
yields an empty list (the source catches the parse error and warns). -/
def loadChunkBatch (st : StoreState) (batchNum : Nat) : List GraphChunkData :=
  match JMap.get st.chunksCache batchNum with
  | some chunks => chunks
  | none =>
      match JMap.get st.disk.chunkFiles batchNum with
      | some (ChunkFile.parseable chunks) => chunks
      | some ChunkFile.malformed => []
      | none => []

/-- saveChunkBatch: write the batch file and (re-)insert it in the cache. -/
def saveChunkBatch (batchNum : Nat) (chunks : List GraphChunkData) (st : StoreState) : StoreState :=
  { st with
    disk := { st.disk with chunkFiles := JMap.set st.disk.chunkFiles batchNum (ChunkFile.parseable chunks) },
    chunksCache := JMap.set st.chunksCache batchNum chunks }

/-- loadEmbeddingBatch: cache first, then disk; a missing file or a buffer
whose decode throws yields an empty list (the source catches and warns). -/
def loadEmbeddingBatch (st : StoreState) (batchNum : Nat) : List Embedding :=
  match JMap.get st.embeddingsCache batchNum with
  | some embeddings => embeddings
  | none =>
      match JMap.get st.disk.embFiles batchNum with
      | some buffer =>
          match decodeEmbeddings buffer st.config.dimension with
          | some embeddings => embeddings
          | none => []
      | none => []

/-- saveEmbeddingBatch: encode, write the batch file, update the cache. -/
def saveEmbeddingBatch (batchNum : Nat) (embeddings : List Embedding) (st : StoreState) : StoreState :=
  { st with
    disk := { st.disk with embFiles := JMap.set st.disk.embFiles batchNum (encodeEmbeddings st.config.dimension embeddings) },
    embeddingsCache := JMap.set st.embeddingsCache batchNum embeddings }

/-- Write batch `batchNum`'s cached halves to disk (the shared body of the
`evictOldCaches` and `save` loops: `if (chunks) saveChunkBatch(...)`,
`if (embeddings) saveEmbeddingBatch(...)`). -/
def flushOne (batchNum : Nat) (st : StoreState) : StoreState :=
  let st1 := match JMap.get st.chunksCache batchNum with
    | some chunks => saveChunkBatch batchNum chunks st
    | none => st
  match JMap.get st1.embeddingsCache batchNum with
  | some embeddings => saveEmbeddingBatch batchNum embeddings st1
  | none => st1

/-- Loop body of `evictOldCaches`: flush batch `batchNum` to disk (each half
if cached), then remove it from both caches. -/
def evictOne (batchNum : Nat) (st : StoreState) : StoreState :=
  let st2 := flushOne batchNum st
  { st2 with
    chunksCache := JMap.erase st2.chunksCache batchNum,
    embeddingsCache := JMap.erase st2.embeddingsCache batchNum }

/-- The batch numbers `evictOldCaches keepBatchNum` will evict: all cached
batch numbers except `keepBatchNum`, oldest (insertion order) first, limited
to `totalCached - MAX_CACHED_BATCHES + 1` (under the guard
`totalCached >= MAX_CACHED_BATCHES` the JS `Math.max(0, ...)` is the
identity and Nat subtraction agrees with it). -/
def evictTargets (st : StoreState) (keepBatchNum : Nat) : List Nat :=
  ((JMap.keys st.chunksCache).filter (fun n => !(n == keepBatchNum))).take
    (st.chunksCache.length - MAX_CACHED_BATCHES + 1)

/-- evictOldCaches: when at least `MAX_CACHED_BATCHES` batches are cached,
flush-and-remove the oldest non-kept ones. -/
def evictOldCaches (keepBatchNum : Nat) (st : StoreState) : StoreState :=
  if MAX_CACHED_BATCHES ≤ st.chunksCache.length then
    (evictTargets st keepBatchNum).foldl (fun s b => evictOne b s) st
  else st

/-- addChunk: append at global index `chunkCount`: evict under pressure
(keeping the target batch), load-or-create the target batch, push the pair,
re-insert into both caches, bump the count.  Buffered in memory only. -/
def addChunk (chunk : GraphChunkData) (embedding : Embedding) (st : StoreState) : StoreState :=
  let globalIndex := st.index.chunkCount
  let batchNum := getBatchNumber globalIndex
  let st1 := evictOldCaches batchNum st
  let chunks := loadChunkBatch st1 batchNum
  let embeddings := loadEmbeddingBatch st1 batchNum
  { st1 with
    chunksCache := JMap.set st1.chunksCache batchNum (chunks ++ [chunk]),
    embeddingsCache := JMap.set st1.embeddingsCache batchNum (embeddings ++ [embedding]),
    index := { st1.index with chunkCount := st1.index.chunkCount + 1 } }

/-- Inner loop of `removeChunksBySource` over one batch: walk the chunk list
with its index, keeping each chunk whose source differs together with the
embedding at the same index (`embeddings[i]!`; the source's non-null
assertion is modelled by a default of `[]`, never used when the two lists
have equal length), counting the removed ones. -/
def scanPair (source : String) : List GraphChunkData → List Embedding →
    List GraphChunkData × List Embedding × Nat
  | [], _ => ([], [], 0)
  | c :: cs, es =>
      let rest := scanPair source cs es.tail
      if c.source ≠ source then
        (c :: rest.1, es.headD [] :: rest.2.1, rest.2.2)
      else
        (rest.1, rest.2.1, rest.2.2 + 1)

/-- Delete the chunk and embedding batch files numbered `0..totalBatches-1`
(the `fs.unlinkSync` loop; deleting an absent key is a no-op, matching the
`existsSync` guard). -/
def deleteBatchFiles (totalBatches : Nat) (d : Disk) : Disk :=
  { d with
    chunkFiles := (List.range totalBatches).foldl (fun m b => JMap.erase m b) d.chunkFiles,
    embFiles := (List.range totalBatches).foldl (fun m b => JMap.erase m b) d.embFiles }

/-- removeChunksBySource: scan every batch, partition into kept and removed;
if nothing matched, return unchanged; otherwise delete all existing batch
files, clear the caches, reset the count to the kept count, rewrite the kept
records into fresh batches of `BATCH_SIZE` (each written to disk and cached
via the save helpers) and persist the index. -/
def removeChunksBySource (source : String) (st : StoreState) : StoreState :=
  let totalBatches := ceilDiv st.index.chunkCount BATCH_SIZE
  let scanned := (List.range totalBatches).foldl
    (fun (acc : List GraphChunkData × List Embedding × Nat) b =>
      let r := scanPair source (loadChunkBatch st b) (loadEmbeddingBatch st b)
      (acc.1 ++ r.1, acc.2.1 ++ r.2.1, acc.2.2 + r.2.2))
    ([], [], 0)
  let remainingChunks := scanned.1
  let remainingEmbeddings := scanned.2.1
  let removedCount := scanned.2.2
  if removedCount = 0 then st
  else
    let st1 := { st with disk := deleteBatchFiles totalBatches st.disk }
    let st2 := { st1 with chunksCache := [], embeddingsCache := [] }
    let st3 := { st2 with index := { st2.index with chunkCount := remainingChunks.length } }
    let newTotalBatches := ceilDiv remainingChunks.length BATCH_SIZE
    let st4 := (List.range newTotalBatches).foldl
      (fun s b =>
        saveEmbeddingBatch b (sliceAt remainingEmbeddings b)
          (saveChunkBatch b (sliceAt remainingChunks b) s))
      st3
    saveIndex st4

/-- save: flush every cached batch to disk (iterating the chunk cache's keys,
writing each half that is present), persist config and index, then clear
both caches. -/
def save (st : StoreState) : StoreState :=
  let st1 := (JMap.keys st.chunksCache).foldl (fun s batchNum => flushOne batchNum s) st
  let st2 := saveIndex (saveConfig st1)
  { st2 with chunksCache := [], embeddingsCache := [] }

/-- getStats (timestamp omitted from the model). -/
def getStats (st : StoreState) : Nat := st.index.chunkCount

/-- hasData: `chunkCount > 0`. -/
def hasData (st : StoreState) : Bool := decide (0 < st.index.chunkCount)

/-- getConfig: the stored dimension and threshold. -/
def getConfig (st : StoreState) : Nat × Rat :=
  (st.config.dimension, st.config.threshold)

/-- getChunks: load every batch in ascending order and concatenate. -/
def getChunks (st : StoreState) : List GraphChunkData :=
  (List.range (ceilDiv st.index.chunkCount BATCH_SIZE)).flatMap
    (fun b => loadChunkBatch st b)

/-- getEmbeddings: load every embedding batch in ascending order. -/
def getEmbeddings (st : StoreState) : List Embedding :=
  (List.range (ceilDiv st.index.chunkCount BATCH_SIZE)).flatMap
    (fun b => loadEmbeddingBatch st b)

/-- clear: delete every file in the chunks and embeddings directories, reset
and persist the index, clear both caches.  The config is untouched. -/
def clear (st : StoreState) : StoreState :=
  let st1 := { st with disk := { st.disk with chunkFiles := [], embFiles := [] } }
  let st2 := { st1 with index := createEmptyIndex }
  let st3 := saveIndex st2
  { st3 with chunksCache := [], embeddingsCache := [] }

/-- Fold `addChunk` over a list of (chunk, embedding) pairs. -/
def addList (pairs : List (GraphChunkData × Embedding)) (st : StoreState) : StoreState :=
  pairs.foldl (fun s p => addChunk p.1 p.2 s) st

/-- Well-formed append history for dimension `d`: every vector has exactly
`d` entries, each a 32-bit pattern. -/
def WFPairs (d : Nat) (l : List (GraphChunkData × Embedding)) : Prop :=
  ∀ p ∈ l, p.2.length = d ∧ ∀ v ∈ p.2, v < 4294967296

/-- Relation between a store state and the history `l` of appended
(chunk, embedding) pairs.  Cached entries hold the current slice of the
history; disk entries not shadowed by a cache entry hold the current slice
too (a disk entry under a cache entry may be stale). -/
structure Inv (d : Nat) (l : List (GraphChunkData × Embedding)) (st : StoreState) : Prop where
  count_eq : st.index.chunkCount = l.length
  dim_eq : st.config.dimension = d
  version_eq : st.config.version = "1.0"
  cacheC : ∀ b cs, JMap.get st.chunksCache b = some cs → cs = sliceAt (l.map Prod.fst) b
  cacheE : ∀ b es, JMap.get st.embeddingsCache b = some es → es = sliceAt (l.map Prod.snd) b
  diskC : ∀ b f, JMap.get st.chunksCache b = none →
    JMap.get st.disk.chunkFiles b = some f →
    f = ChunkFile.parseable (sliceAt (l.map Prod.fst) b)
  diskE : ∀ b bs, JMap.get st.embeddingsCache b = none →
    JMap.get st.disk.embFiles b = some bs →
    bs = encodeEmbeddings d (sliceAt (l.map Prod.snd) b)
  coverC : ∀ b, b * BATCH_SIZE < l.length →
    (JMap.get st.chunksCache b).isSome ∨ (JMap.get st.disk.chunkFiles b).isSome
  coverE : ∀ b, b * BATCH_SIZE < l.length →
    (JMap.get st.embeddingsCache b).isSome ∨ (JMap.get st.disk.embFiles b).isSome
  boundCacheC : ∀ b, (JMap.get st.chunksCache b).isSome → b * BATCH_SIZE < l.length
  boundCacheE : ∀ b, (JMap.get st.embeddingsCache b).isSome → b * BATCH_SIZE < l.length
  boundDiskC : ∀ b, (JMap.get st.disk.chunkFiles b).isSome → b * BATCH_SIZE < l.length
  boundDiskE : ∀ b, (JMap.get st.disk.embFiles b).isSome → b * BATCH_SIZE < l.length
  keysEq : JMap.keys st.chunksCache = JMap.keys st.embeddingsCache
  nodupC : (JMap.keys st.chunksCache).Nodup

end GraphStore

/-- A concrete chunk record with the given source, used by example states. -/
def mkRec (s : String) : GraphChunkData := GraphChunkData.mk "i" "t" s 0

/-- A concrete store: empty caches, 7000 records on disk in seven full
batches — the first six from source "b", the last from source "a" — with
dimension-0 embeddings.  An example input for `removeChunksBySource`. -/
def exRemoveState : StoreState :=
  StoreState.mk (GraphConfig.mk "1.0" 0 (7/10)) (GraphIndex.mk 7000 1000) [] []
    (Disk.mk
      ((List.range 7).map (fun b =>
        (b, ChunkFile.parseable (List.replicate 1000 (mkRec (if b == 6 then "a" else "b"))))))
      ((List.range 7).map (fun b =>
        (b, encodeEmbeddings 0 (List.replicate 1000 []))))
      none none)


/-! ### Lemmas about the JS-`Map` model -/

namespace JMap

variable {α : Type}

theorem get_set_self (m : List (Nat × α)) (k : Nat) (v : α) :
    get (set m k v) k = some v := by
  induction m with
  | nil => simp [get, set]
  | cons kv m ih =>
      by_cases h : kv.1 = k
      · simp [get, set, h]
      · simp [get, set, h, ih]

theorem get_set_ne (m : List (Nat × α)) (k k' : Nat) (v : α) (h : k ≠ k') :
    get (set m k v) k' = get m k' := by
  induction m with
  | nil => simp [get, set, h]
  | cons kv m ih =>
      by_cases hk : kv.1 = k
      · simp [get, set, hk, h]
      · by_cases hk' : kv.1 = k'
        · simp [get, set, hk, hk', Ne.symm h]
        · simp [get, set, hk, hk', ih]

theorem keys_cons (kv : Nat × α) (m : List (Nat × α)) :
    keys (kv :: m) = kv.1 :: keys m := rfl

theorem mem_keys_cons (kv : Nat × α) (m : List (Nat × α)) (k : Nat) :
    k ∈ keys (kv :: m) ↔ k = kv.1 ∨ k ∈ keys m := by
  rw [keys_cons, List.mem_cons]

theorem erase_sublist (m : List (Nat × α)) (k : Nat) : (erase m k).Sublist m := by
  induction m with
  | nil => simp [erase]
  | cons kv m ih =>
      by_cases h : kv.1 = k
      · simpa [erase, h] using List.sublist_cons_self kv m
      · simpa [erase, h] using ih.cons₂ kv

theorem get_erase_ne (m : List (Nat × α)) (k k' : Nat) (h : k ≠ k') :
    get (erase m k) k' = get m k' := by
  induction m with
  | nil => simp [erase]
  | cons kv m ih =>
      by_cases hk : kv.1 = k
      · have : kv.1 ≠ k' := by simpa [hk] using h
        simp [erase, get, hk, this, h]
      · by_cases hk' : kv.1 = k'
        · simp [erase, get, hk, hk', Ne.symm h]
        · simp [erase, get, hk, hk', ih]

theorem mem_keys_iff_get (m : List (Nat × α)) (k : Nat) :
    k ∈ keys m ↔ (get m k).isSome := by
  induction m with
  | nil => simp [keys, get]
  | cons kv m ih =>
      by_cases h : kv.1 = k
      · simp [keys, get, h]
      · simp [keys, get, h, Ne.symm h, ih, keys] at ih ⊢
        exact ih

theorem get_eq_none_of_not_mem (m : List (Nat × α)) (k : Nat) (h : k ∉ keys m) :
    get m k = none := by
  have := (mem_keys_iff_get m k).not.mp h
  cases hg : get m k with
  | none => rfl
  | some v => simp [hg] at this

theorem erase_of_not_mem (m : List (Nat × α)) (k : Nat) (h : k ∉ keys m) :
    erase m k = m := by
  induction m with
  | nil => simp [erase]
  | cons kv m ih =>
      have h1 : kv.1 ≠ k :=
        fun hc => h ((mem_keys_cons kv m k).mpr (Or.inl hc.symm))
      have h2 : k ∉ keys m :=
        fun hc => h ((mem_keys_cons kv m k).mpr (Or.inr hc))
      simp [erase, h1, ih h2]

theorem get_erase_self (m : List (Nat × α)) (k : Nat) (hnodup : (keys m).Nodup) :
    get (erase m k) k = none := by
  induction m with
  | nil => simp [erase, get]
  | cons kv m ih =>
      rw [keys_cons, List.nodup_cons] at hnodup
      by_cases h : kv.1 = k
      · subst h
        simp only [erase, if_pos rfl]
        exact get_eq_none_of_not_mem m kv.1 hnodup.1
      · simp [erase, get, h, ih hnodup.2]

theorem keys_set_of_mem (m : List (Nat × α)) (k : Nat) (v : α) (h : k ∈ keys m) :
    keys (set m k v) = keys m := by
  induction m with
  | nil => simp [keys] at h
  | cons kv m ih =>
      by_cases hk : kv.1 = k
      · simp [set, keys, hk]
      · have : k ∈ keys m := by
          rcases (mem_keys_cons kv m k).mp h with h1 | h2
          · exact absurd h1.symm hk
          · exact h2
        simp only [set, if_neg hk]
        rw [keys_cons, keys_cons, ih this]

theorem keys_set_of_not_mem (m : List (Nat × α)) (k : Nat) (v : α) (h : k ∉ keys m) :
    keys (set m k v) = keys m ++ [k] := by
  induction m with
  | nil => simp [set, keys]
  | cons kv m ih =>
      have h1 : kv.1 ≠ k :=
        fun hc => h ((mem_keys_cons kv m k).mpr (Or.inl hc.symm))
      have h2 : k ∉ keys m :=
        fun hc => h ((mem_keys_cons kv m k).mpr (Or.inr hc))
      simp only [set, if_neg h1]
      rw [keys_cons, keys_cons, ih h2, List.cons_append]

theorem length_set_of_mem (m : List (Nat × α)) (k : Nat) (v : α) (h : k ∈ keys m) :
    (set m k v).length = m.length := by
  have := keys_set_of_mem m k v h
  have h1 : (keys (set m k v)).length = (keys m).length := by rw [this]
  simpa [keys] using h1

theorem length_set_of_not_mem (m : List (Nat × α)) (k : Nat) (v : α) (h : k ∉ keys m) :
    (set m k v).length = m.length + 1 := by
  have := keys_set_of_not_mem m k v h
  have h1 : (keys (set m k v)).length = (keys m).length + 1 := by simp [this]
  simpa [keys] using h1

theorem length_erase_of_mem (m : List (Nat × α)) (k : Nat) (h : k ∈ keys m) :
    (erase m k).length + 1 = m.length := by
  induction m with
  | nil => simp [keys] at h
  | cons kv m ih =>
      by_cases hk : kv.1 = k
      · simp [erase, hk]
      · have : k ∈ keys m := by
          rcases (mem_keys_cons kv m k).mp h with h1 | h2
          · exact absurd h1.symm hk
          · exact h2
        simp [erase, hk, ih this]

theorem set_get_self (m : List (Nat × α)) (k : Nat) (v : α) (h : get m k = some v) :
    set m k v = m := by
  induction m with
  | nil => simp [get] at h
  | cons kv m ih =>
      obtain ⟨k0, v0⟩ := kv
      by_cases hk : k0 = k
      · simp [get, hk] at h
        simp [set, hk, h]
      · simp [get, hk] at h
        simp [set, hk, ih h]

theorem nodup_keys_set (m : List (Nat × α)) (k : Nat) (v : α) (h : (keys m).Nodup) :
    (keys (set m k v)).Nodup := by
  by_cases hk : k ∈ keys m
  · rwa [keys_set_of_mem m k v hk]
  · rw [keys_set_of_not_mem m k v hk]
    simpa [List.nodup_append] using ⟨h, hk⟩

theorem nodup_keys_erase (m : List (Nat × α)) (k : Nat) (h : (keys m).Nodup) :
    (keys (erase m k)).Nodup := by
  exact ((erase_sublist m k).map Prod.fst).nodup h

theorem mem_keys_erase (m : List (Nat × α)) (k k' : Nat) (h : k' ∈ keys (erase m k)) :
    k' ∈ keys m :=
  ((erase_sublist m k).map Prod.fst).mem h

theorem not_mem_keys_erase_self (m : List (Nat × α)) (k : Nat) (h : (keys m).Nodup) :
    k ∉ keys (erase m k) := by
  intro hmem
  have := (mem_keys_iff_get (erase m k) k).mp hmem
  rw [get_erase_self m k h] at this
  simp at this

theorem mem_keys_erase_of_ne (m : List (Nat × α)) (k k' : Nat) (h : k ≠ k')
    (hmem : k' ∈ keys m) : k' ∈ keys (erase m k) := by
  rw [mem_keys_iff_get] at hmem ⊢
  rwa [get_erase_ne m k k' h]

end JMap

/-! ### Codec lemmas -/

theorem bytesLE4_length (n : Nat) : (bytesLE4 n).length = 4 := by
  simp [bytesLE4]

theorem readU32LE_bytesLE4 (n : Nat) (rest : List Nat) :
    readU32LE (bytesLE4 n ++ rest) = some (n % 4294967296) := by
  simp only [bytesLE4, List.cons_append, List.nil_append, readU32LE, Option.some.injEq]
  omega

theorem readF32_bytesLE4 (v : Nat) (rest : List Nat) :
    readF32 (bytesLE4 v ++ rest) = some (v % 4294967296, rest) := by
  simp only [bytesLE4, List.cons_append, List.nil_append, readF32, Option.some.injEq,
    Prod.mk.injEq]
  exact ⟨by omega, trivial⟩

theorem readVec_flat (e : Embedding) (rest : List Nat) (hv : ∀ v ∈ e, v < 4294967296) :
    readVec e.length (e.flatMap bytesLE4 ++ rest) = some (e, rest) := by
  induction e with
  | nil => simp [readVec]
  | cons v e ih =>
      have hv0 : v < 4294967296 := hv v (by simp)
      have ih1 := ih (fun x hx => hv x (by simp [hx]))
      simp only [List.length_cons, List.flatMap_cons, List.append_assoc, readVec]
      rw [readF32_bytesLE4, Nat.mod_eq_of_lt hv0]
      simp [ih1]

theorem readVecs_flat (l : List Embedding) (d : Nat) (rest : List Nat)
    (hlen : ∀ e ∈ l, e.length = d) (hv : ∀ e ∈ l, ∀ v ∈ e, v < 4294967296) :
    readVecs l.length d (l.flatMap (fun e => e.flatMap bytesLE4) ++ rest) = some l := by
  induction l with
  | nil => simp [readVecs]
  | cons e l ih =>
      have h1 : readVec d
          (e.flatMap bytesLE4 ++ (l.flatMap (fun e => e.flatMap bytesLE4) ++ rest)) =
          some (e, l.flatMap (fun e => e.flatMap bytesLE4) ++ rest) := by
        rw [← hlen e (by simp)]
        exact readVec_flat e _ (hv e (by simp))
      have ih1 := ih (fun x hx => hlen x (by simp [hx])) (fun x hx => hv x (by simp [hx]))
      simp only [List.length_cons, List.flatMap_cons, List.append_assoc, readVecs]
      rw [h1]
      simp [ih1]

theorem decodeEmbeddings_encode (d : Nat) (l : List Embedding)
    (hlen : ∀ e ∈ l, e.length = d) (hv : ∀ e ∈ l, ∀ v ∈ e, v < 4294967296)
    (hcount : l.length < 4294967296) :
    decodeEmbeddings (encodeEmbeddings d l) d = some l := by
  have hdrop : (encodeEmbeddings d l).drop 4 = l.flatMap (fun e => e.flatMap bytesLE4) := by
    rw [encodeEmbeddings, show (4 : Nat) = (bytesLE4 l.length).length from (bytesLE4_length _).symm,
      List.drop_left]
  have hread : readU32LE (encodeEmbeddings d l) = some l.length := by
    rw [encodeEmbeddings, readU32LE_bytesLE4, Nat.mod_eq_of_lt hcount]
  rw [decodeEmbeddings, hread, hdrop]
  have := readVecs_flat l d [] hlen hv
  rwa [List.append_nil] at this

theorem flatMap_bytesLE4_length (e : Embedding) :
    (e.flatMap bytesLE4).length = 4 * e.length := by
  induction e with
  | nil => simp
  | cons v e ihe =>
      simp only [List.flatMap_cons, List.length_append, bytesLE4_length, ihe,
        List.length_cons]
      ring

theorem flatBytes_length (l : List Embedding) (d : Nat) (hlen : ∀ e ∈ l, e.length = d) :
    (l.flatMap (fun e => e.flatMap bytesLE4)).length = l.length * d * 4 := by
  induction l with
  | nil => simp
  | cons e l ih =>
      have ih1 := ih (fun x hx => hlen x (by simp [hx]))
      simp only [List.flatMap_cons, List.length_append, flatMap_bytesLE4_length, ih1,
        hlen e (by simp), List.length_cons]
      ring

theorem encodeEmbeddings_length (d : Nat) (l : List Embedding)
    (hlen : ∀ e ∈ l, e.length = d) :
    (encodeEmbeddings d l).length = 4 + l.length * d * 4 := by
  rw [encodeEmbeddings, List.length_append, bytesLE4_length, flatBytes_length l d hlen]

theorem readVec_length (d : Nat) (bs : List Nat) (v : Embedding) (rest : List Nat)
    (h : readVec d bs = some (v, rest)) : bs.length = rest.length + d * 4 := by
  induction d generalizing bs v rest with
  | zero =>
      simp only [readVec, Option.some.injEq, Prod.mk.injEq] at h
      simp [h.2]
  | succ d ih =>
      rw [readVec] at h
      cases hf : readF32 bs with
      | none => rw [hf] at h; simp at h
      | some p =>
          obtain ⟨pv, pb⟩ := p
          rw [hf] at h
          dsimp only at h
          cases hr : readVec d pb with
          | none => rw [hr] at h; simp at h
          | some q =>
              obtain ⟨qv, qb⟩ := q
              rw [hr] at h
              dsimp only at h
              simp only [Option.some.injEq, Prod.mk.injEq] at h
              have hlen : bs.length = pb.length + 4 := by
                cases bs with
                | nil => simp [readF32] at hf
                | cons b0 t0 =>
                  cases t0 with
                  | nil => simp [readF32] at hf
                  | cons b1 t1 =>
                    cases t1 with
                    | nil => simp [readF32] at hf
                    | cons b2 t2 =>
                      cases t2 with
                      | nil => simp [readF32] at hf
                      | cons b3 t3 =>
                          simp only [readF32, Option.some.injEq, Prod.mk.injEq] at hf
                          rw [← hf.2]
                          simp
              have h2 := ih pb qv qb hr
              have h4 : qb.length = rest.length := by rw [h.2]
              omega

theorem readVecs_length (c d : Nat) (bs : List Nat) (l : List Embedding)
    (h : readVecs c d bs = some l) : c * (d * 4) ≤ bs.length := by
  induction c generalizing bs l with
  | zero => simp
  | succ c ih =>
      rw [readVecs] at h
      cases hf : readVec d bs with
      | none => rw [hf] at h; simp at h
      | some p =>
          obtain ⟨pv, pb⟩ := p
          rw [hf] at h
          dsimp only at h
          cases hr : readVecs c d pb with
          | none => rw [hr] at h; simp at h
          | some q =>
              have h1 := readVec_length d bs pv pb hf
              have h2 := ih pb q hr
              have h3 : (c + 1) * (d * 4) = c * (d * 4) + d * 4 := by ring
              omega

theorem decodeEmbeddings_short (bs : List Nat) (d c : Nat)
    (hread : readU32LE bs = some c) (hshort : bs.length < 4 + c * d * 4) :
    decodeEmbeddings bs d = none := by
  rw [decodeEmbeddings, hread]
  dsimp only
  cases hv : readVecs c d (bs.drop 4) with
  | none => rfl
  | some l =>
      exfalso
      have h1 := readVecs_length c d (bs.drop 4) l hv
      have h4 : 4 ≤ bs.length := by
        cases bs with
        | nil => simp [readU32LE] at hread
        | cons b0 t0 =>
          cases t0 with
          | nil => simp [readU32LE] at hread
          | cons b1 t1 =>
            cases t1 with
            | nil => simp [readU32LE] at hread
            | cons b2 t2 =>
              cases t2 with
              | nil => simp [readU32LE] at hread
              | cons b3 t3 => simp
      have h2 : (bs.drop 4).length = bs.length - 4 := by simp
      have : c * (d * 4) = c * d * 4 := by ring
      omega

/-! ### Batch-slicing lemmas -/

theorem sliceAt_length {α : Type} (xs : List α) (b : Nat) :
    (sliceAt xs b).length = min BATCH_SIZE (xs.length - b * BATCH_SIZE) := by
  simp [sliceAt]

theorem sliceAt_eq_nil {α : Type} (xs : List α) (b : Nat)
    (h : xs.length ≤ b * BATCH_SIZE) : sliceAt xs b = [] := by
  simp [sliceAt, List.drop_eq_nil_of_le h]

theorem sliceAt_zero {α : Type} (xs : List α) : sliceAt xs 0 = xs.take BATCH_SIZE := by
  simp [sliceAt]

theorem sliceAt_succ {α : Type} (xs : List α) (b : Nat) :
    sliceAt xs (b + 1) = sliceAt (xs.drop BATCH_SIZE) b := by
  unfold sliceAt
  rw [List.drop_drop]
  congr 2
  ring

theorem lt_ceilDiv_iff (b n : Nat) : b < ceilDiv n BATCH_SIZE ↔ b * BATCH_SIZE < n := by
  simp only [ceilDiv, BATCH_SIZE]
  omega

theorem ceilDiv_drop (n k : Nat) (h : ceilDiv n BATCH_SIZE = k + 1) :
    ceilDiv (n - BATCH_SIZE) BATCH_SIZE = k := by
  simp only [ceilDiv, BATCH_SIZE] at h ⊢
  omega

theorem flatMap_sliceAt_aux {α : Type} (k : Nat) : ∀ (xs : List α),
    ceilDiv xs.length BATCH_SIZE = k →
    (List.range k).flatMap (fun b => sliceAt xs b) = xs := by
  induction k with
  | zero =>
      intro xs h
      have h0 : xs.length = 0 := by
        simp only [ceilDiv, BATCH_SIZE] at h
        omega
      simp [List.length_eq_zero.mp h0]
  | succ k ih =>
      intro xs h
      rw [List.range_succ_eq_map, List.flatMap_cons, List.flatMap_map]
      have h2 : ceilDiv (xs.drop BATCH_SIZE).length BATCH_SIZE = k := by
        rw [List.length_drop]
        exact ceilDiv_drop xs.length k h
      simp only [sliceAt_succ]
      rw [ih _ h2, sliceAt_zero, List.take_append_drop]

theorem flatMap_sliceAt {α : Type} (xs : List α) :
    (List.range (ceilDiv xs.length BATCH_SIZE)).flatMap (fun b => sliceAt xs b) = xs :=
  flatMap_sliceAt_aux (ceilDiv xs.length BATCH_SIZE) xs rfl

theorem sliceAt_append_of_lt {α : Type} (xs : List α) (x : α) (b : Nat)
    (h : (b + 1) * BATCH_SIZE ≤ xs.length) : sliceAt (xs ++ [x]) b = sliceAt xs b := by
  unfold sliceAt
  simp only [BATCH_SIZE] at h ⊢
  rw [List.drop_append_of_le_length (by omega : b * 1000 ≤ xs.length)]
  rw [List.take_append_of_le_length]
  rw [List.length_drop]
  omega

theorem sliceAt_append_tail {α : Type} (xs : List α) (x : α) :
    sliceAt (xs ++ [x]) (xs.length / BATCH_SIZE) =
      sliceAt xs (xs.length / BATCH_SIZE) ++ [x] := by
  unfold sliceAt
  simp only [BATCH_SIZE]
  have hle : xs.length / 1000 * 1000 ≤ xs.length := Nat.div_mul_le_self _ _
  rw [List.drop_append_of_le_length hle]
  have hlen : (xs.drop (xs.length / 1000 * 1000)).length ≤ 999 := by
    rw [List.length_drop]
    omega
  rw [List.take_all_of_le (by simp only [List.length_append, List.length_cons, List.length_nil]; omega),
      List.take_all_of_le (by omega)]

theorem sliceAt_append_of_gt {α : Type} (xs : List α) (x : α) (b : Nat)
    (h : xs.length / BATCH_SIZE < b) : sliceAt (xs ++ [x]) b = [] := by
  apply sliceAt_eq_nil
  rw [List.length_append]
  simp only [BATCH_SIZE] at h ⊢
  simp only [List.length_cons, List.length_nil]
  have hstep : xs.length / 1000 * 1000 + 1000 ≤ b * 1000 := by
    have hb : xs.length / 1000 + 1 ≤ b := h
    calc xs.length / 1000 * 1000 + 1000 = (xs.length / 1000 + 1) * 1000 := by ring
      _ ≤ b * 1000 := Nat.mul_le_mul_right _ hb
  omega

/-! ### More JMap lemmas -/

namespace JMap

theorem keys_erase {α : Type} (m : List (Nat × α)) (k : Nat) :
    keys (erase m k) = (keys m).erase k := by
  induction m with
  | nil => simp [erase, keys]
  | cons kv m ih =>
      by_cases h : kv.1 = k
      · subst h
        rw [keys_cons]
        simp [erase, List.erase_cons_head]
      · rw [keys_cons]
        simp only [erase, if_neg h]
        rw [keys_cons, ih, List.erase_cons_tail (by simpa using h)]

theorem isSome_iff_isSome_of_keys_eq {α β : Type} {A : List (Nat × α)} {B : List (Nat × β)}
    (hkeys : keys A = keys B) (b : Nat) :
    (get A b).isSome ↔ (get B b).isSome := by
  rw [← mem_keys_iff_get, ← mem_keys_iff_get, hkeys]

end JMap

/-! ### The flush helper -/

namespace GraphStore

theorem flushOne_spec (st : StoreState) (b : Nat) :
    (flushOne b st).config = st.config ∧
    (flushOne b st).index = st.index ∧
    (flushOne b st).chunksCache = st.chunksCache ∧
    (flushOne b st).embeddingsCache = st.embeddingsCache ∧
    (flushOne b st).disk.configFile = st.disk.configFile ∧
    (flushOne b st).disk.indexFile = st.disk.indexFile ∧
    ((flushOne b st).disk.chunkFiles =
      match JMap.get st.chunksCache b with
      | some cs => JMap.set st.disk.chunkFiles b (ChunkFile.parseable cs)
      | none => st.disk.chunkFiles) ∧
    ((flushOne b st).disk.embFiles =
      match JMap.get st.embeddingsCache b with
      | some es => JMap.set st.disk.embFiles b (encodeEmbeddings st.config.dimension es)
      | none => st.disk.embFiles) := by
  cases hc : JMap.get st.chunksCache b with
  | none =>
      cases he : JMap.get st.embeddingsCache b with
      | none => simp [flushOne, hc, he]
      | some es =>
          simp [flushOne, saveEmbeddingBatch, hc, he, JMap.set_get_self _ _ _ he]
  | some cs =>
      cases he : JMap.get st.embeddingsCache b with
      | none =>
          simp [flushOne, saveChunkBatch, hc, he, JMap.set_get_self _ _ _ hc]
      | some es =>
          simp [flushOne, saveChunkBatch, saveEmbeddingBatch, hc, he,
            JMap.set_get_self _ _ _ hc, JMap.set_get_self _ _ _ he]

/-! ### The append-history invariant -/

theorem Inv.loadC {d : Nat} {l : List (GraphChunkData × Embedding)} {st : StoreState}
    (h : Inv d l st) (b : Nat) :
    loadChunkBatch st b = sliceAt (l.map Prod.fst) b := by
  cases hc : JMap.get st.chunksCache b with
  | some cs =>
      simp only [loadChunkBatch, hc]
      exact h.cacheC b cs hc
  | none =>
      cases hd : JMap.get st.disk.chunkFiles b with
      | some f =>
          simp only [loadChunkBatch, hc, hd]
          rw [h.diskC b f hc hd]
      | none =>
          simp only [loadChunkBatch, hc, hd]
          by_cases hb : b * BATCH_SIZE < l.length
          · rcases h.coverC b hb with h1 | h1
            · rw [hc] at h1; simp at h1
            · rw [hd] at h1; simp at h1
          · rw [sliceAt_eq_nil]
            rw [List.length_map]
            omega

theorem Inv.loadE {d : Nat} {l : List (GraphChunkData × Embedding)} {st : StoreState}
    (h : Inv d l st) (hWF : WFPairs d l) (b : Nat) :
    loadEmbeddingBatch st b = sliceAt (l.map Prod.snd) b := by
  cases hc : JMap.get st.embeddingsCache b with
  | some es =>
      simp only [loadEmbeddingBatch, hc]
      exact h.cacheE b es hc
  | none =>
      cases hd : JMap.get st.disk.embFiles b with
      | some bs =>
          simp only [loadEmbeddingBatch, hc, hd]
          rw [h.diskE b bs hc hd, h.dim_eq]
          have hsub : ∀ e ∈ sliceAt (l.map Prod.snd) b, e ∈ l.map Prod.snd := by
            intro e he
            exact List.drop_subset _ _ (List.take_subset _ _ he)
          have hlen : ∀ e ∈ sliceAt (l.map Prod.snd) b, e.length = d := by
            intro e he
            rcases List.mem_map.mp (hsub e he) with ⟨p, hp, hpe⟩
            rw [← hpe]
            exact (hWF p hp).1
          have hval : ∀ e ∈ sliceAt (l.map Prod.snd) b, ∀ v ∈ e, v < 4294967296 := by
            intro e he
            rcases List.mem_map.mp (hsub e he) with ⟨p, hp, hpe⟩
            rw [← hpe]
            exact (hWF p hp).2
          have hcount : (sliceAt (l.map Prod.snd) b).length < 4294967296 := by
            rw [sliceAt_length]
            simp only [BATCH_SIZE]
            omega
          rw [decodeEmbeddings_encode d _ hlen hval hcount]
      | none =>
          simp only [loadEmbeddingBatch, hc, hd]
          by_cases hb : b * BATCH_SIZE < l.length
          · rcases h.coverE b hb with h1 | h1
            · rw [hc] at h1; simp at h1
            · rw [hd] at h1; simp at h1
          · rw [sliceAt_eq_nil]
            rw [List.length_map]
            omega

theorem Inv.getChunks_eq {d : Nat} {l : List (GraphChunkData × Embedding)} {st : StoreState}
    (h : Inv d l st) : getChunks st = l.map Prod.fst := by
  unfold getChunks
  rw [h.count_eq]
  have hl : l.length = (l.map Prod.fst).length := (List.length_map _ _).symm
  rw [hl]
  simp only [h.loadC]
  exact flatMap_sliceAt (l.map Prod.fst)

theorem Inv.getEmbeddings_eq {d : Nat} {l : List (GraphChunkData × Embedding)} {st : StoreState}
    (h : Inv d l st) (hWF : WFPairs d l) : getEmbeddings st = l.map Prod.snd := by
  unfold getEmbeddings
  rw [h.count_eq]
  have hl : l.length = (l.map Prod.snd).length := (List.length_map _ _).symm
  rw [hl]
  simp only [h.loadE hWF]
  exact flatMap_sliceAt (l.map Prod.snd)

end GraphStore

namespace GraphStore

/-- Writing the current chunk slice of an in-range batch to disk preserves
the invariant. -/
theorem setDiskC_inv {d : Nat} {l : List (GraphChunkData × Embedding)} {st : StoreState}
    (h : Inv d l st) (b : Nat) (hb : b * BATCH_SIZE < l.length) :
    Inv d l { st with disk := { st.disk with
      chunkFiles := JMap.set st.disk.chunkFiles b (ChunkFile.parseable (sliceAt (l.map Prod.fst) b)) } } := by
  constructor <;> simp only []
  · exact h.count_eq
  · exact h.dim_eq
  · exact h.version_eq
  · exact h.cacheC
  · exact h.cacheE
  · intro b' f hnone hget
    by_cases hbb : b = b'
    · subst hbb
      rw [JMap.get_set_self] at hget
      simp only [Option.some.injEq] at hget
      exact hget.symm
    · rw [JMap.get_set_ne _ _ _ _ hbb] at hget
      exact h.diskC b' f hnone hget
  · exact h.diskE
  · intro b' hb'
    rcases h.coverC b' hb' with h1 | h1
    · exact Or.inl h1
    · right
      by_cases hbb : b = b'
      · subst hbb; rw [JMap.get_set_self]; rfl
      · rw [JMap.get_set_ne _ _ _ _ hbb]; exact h1
  · exact h.coverE
  · exact h.boundCacheC
  · exact h.boundCacheE
  · intro b' hs
    by_cases hbb : b = b'
    · subst hbb; exact hb
    · rw [JMap.get_set_ne _ _ _ _ hbb] at hs
      exact h.boundDiskC b' hs
  · exact h.boundDiskE
  · exact h.keysEq
  · exact h.nodupC

/-- Writing the current encoded embedding slice of an in-range batch to disk
preserves the invariant. -/
theorem setDiskE_inv {d : Nat} {l : List (GraphChunkData × Embedding)} {st : StoreState}
    (h : Inv d l st) (b : Nat) (hb : b * BATCH_SIZE < l.length) :
    Inv d l { st with disk := { st.disk with
      embFiles := JMap.set st.disk.embFiles b (encodeEmbeddings d (sliceAt (l.map Prod.snd) b)) } } := by
  constructor <;> simp only []
  · exact h.count_eq
  · exact h.dim_eq
  · exact h.version_eq
  · exact h.cacheC
  · exact h.cacheE
  · exact h.diskC
  · intro b' bs hnone hget
    by_cases hbb : b = b'
    · subst hbb
      rw [JMap.get_set_self] at hget
      simp only [Option.some.injEq] at hget
      exact hget.symm
    · rw [JMap.get_set_ne _ _ _ _ hbb] at hget
      exact h.diskE b' bs hnone hget
  · exact h.coverC
  · intro b' hb'
    rcases h.coverE b' hb' with h1 | h1
    · exact Or.inl h1
    · right
      by_cases hbb : b = b'
      · subst hbb; rw [JMap.get_set_self]; rfl
      · rw [JMap.get_set_ne _ _ _ _ hbb]; exact h1
  · exact h.boundCacheC
  · exact h.boundCacheE
  · exact h.boundDiskC
  · intro b' hs
    by_cases hbb : b = b'
    · subst hbb; exact hb
    · rw [JMap.get_set_ne _ _ _ _ hbb] at hs
      exact h.boundDiskE b' hs
  · exact h.keysEq
  · exact h.nodupC

/-- saveChunkBatch with the currently cached value preserves the invariant
(the cache re-insert is the identity). -/
theorem saveChunkBatch_inv {d : Nat} {l : List (GraphChunkData × Embedding)} {st : StoreState}
    (h : Inv d l st) {b : Nat} {cs : List GraphChunkData}
    (hcb : JMap.get st.chunksCache b = some cs) : Inv d l (saveChunkBatch b cs st) := by
  have hcs : cs = sliceAt (l.map Prod.fst) b := h.cacheC b cs hcb
  have hbb : b * BATCH_SIZE < l.length := h.boundCacheC b (by rw [hcb]; rfl)
  have hsave : saveChunkBatch b cs st =
      { st with disk := { st.disk with
        chunkFiles := JMap.set st.disk.chunkFiles b (ChunkFile.parseable (sliceAt (l.map Prod.fst) b)) } } := by
    unfold saveChunkBatch
    rw [JMap.set_get_self _ _ _ hcb, hcs]
  rw [hsave]
  exact setDiskC_inv h b hbb

/-- saveEmbeddingBatch with the currently cached value preserves the
invariant. -/
theorem saveEmbeddingBatch_inv {d : Nat} {l : List (GraphChunkData × Embedding)} {st : StoreState}
    (h : Inv d l st) {b : Nat} {es : List Embedding}
    (hce : JMap.get st.embeddingsCache b = some es) : Inv d l (saveEmbeddingBatch b es st) := by
  have hes : es = sliceAt (l.map Prod.snd) b := h.cacheE b es hce
  have hbb : b * BATCH_SIZE < l.length := h.boundCacheE b (by rw [hce]; rfl)
  have hsave : saveEmbeddingBatch b es st =
      { st with disk := { st.disk with
        embFiles := JMap.set st.disk.embFiles b (encodeEmbeddings d (sliceAt (l.map Prod.snd) b)) } } := by
    unfold saveEmbeddingBatch
    rw [JMap.set_get_self _ _ _ hce, hes, h.dim_eq]
  rw [hsave]
  exact setDiskE_inv h b hbb

/-- Flushing one batch to disk preserves the invariant. -/
theorem flushOne_inv {d : Nat} {l : List (GraphChunkData × Embedding)} {st : StoreState}
    (h : Inv d l st) (b : Nat) : Inv d l (flushOne b st) := by
  cases hcb : JMap.get st.chunksCache b with
  | none =>
      simp only [flushOne, hcb]
      cases hce : JMap.get st.embeddingsCache b with
      | none => exact h
      | some es => exact saveEmbeddingBatch_inv h hce
  | some cs =>
      simp only [flushOne, hcb]
      have h1 := saveChunkBatch_inv h hcb
      have hproj : (saveChunkBatch b cs st).embeddingsCache = st.embeddingsCache := rfl
      rw [hproj]
      cases hce : JMap.get st.embeddingsCache b with
      | none => exact h1
      | some es => exact saveEmbeddingBatch_inv h1 hce

end GraphStore

namespace GraphStore

/-- Erasing one batch from both caches preserves the invariant, provided the
batch's current content is on disk (or it was never cached). -/
theorem eraseCaches_inv {d : Nat} {l : List (GraphChunkData × Embedding)} {st : StoreState}
    (h : Inv d l st) (b : Nat)
    (hpc : JMap.get st.chunksCache b = none ∨
      JMap.get st.disk.chunkFiles b = some (ChunkFile.parseable (sliceAt (l.map Prod.fst) b)))
    (hpe : JMap.get st.embeddingsCache b = none ∨
      JMap.get st.disk.embFiles b = some (encodeEmbeddings d (sliceAt (l.map Prod.snd) b))) :
    Inv d l { st with chunksCache := JMap.erase st.chunksCache b,
                      embeddingsCache := JMap.erase st.embeddingsCache b } := by
  have hnodupE : (JMap.keys st.embeddingsCache).Nodup := h.keysEq ▸ h.nodupC
  constructor <;> simp only []
  · exact h.count_eq
  · exact h.dim_eq
  · exact h.version_eq
  · intro b' cs hget
    by_cases hbb : b = b'
    · subst hbb
      rw [JMap.get_erase_self _ _ h.nodupC] at hget
      exact absurd hget (by simp)
    · rw [JMap.get_erase_ne _ _ _ hbb] at hget
      exact h.cacheC b' cs hget
  · intro b' es hget
    by_cases hbb : b = b'
    · subst hbb
      rw [JMap.get_erase_self _ _ hnodupE] at hget
      exact absurd hget (by simp)
    · rw [JMap.get_erase_ne _ _ _ hbb] at hget
      exact h.cacheE b' es hget
  · intro b' f hnone hget
    by_cases hbb : b = b'
    · subst hbb
      rcases hpc with h1 | h1
      · exact h.diskC b f h1 hget
      · rw [h1] at hget
        simp only [Option.some.injEq] at hget
        exact hget.symm
    · rw [JMap.get_erase_ne _ _ _ hbb] at hnone
      exact h.diskC b' f hnone hget
  · intro b' bs hnone hget
    by_cases hbb : b = b'
    · subst hbb
      rcases hpe with h1 | h1
      · exact h.diskE b bs h1 hget
      · rw [h1] at hget
        simp only [Option.some.injEq] at hget
        exact hget.symm
    · rw [JMap.get_erase_ne _ _ _ hbb] at hnone
      exact h.diskE b' bs hnone hget
  · intro b' hb'
    rcases h.coverC b' hb' with h1 | h1
    · by_cases hbb : b = b'
      · subst hbb
        rcases hpc with h2 | h2
        · rw [h2] at h1; simp at h1
        · right; rw [h2]; rfl
      · left
        rw [JMap.get_erase_ne _ _ _ hbb]
        exact h1
    · exact Or.inr h1
  · intro b' hb'
    rcases h.coverE b' hb' with h1 | h1
    · by_cases hbb : b = b'
      · subst hbb
        rcases hpe with h2 | h2
        · rw [h2] at h1; simp at h1
        · right; rw [h2]; rfl
      · left
        rw [JMap.get_erase_ne _ _ _ hbb]
        exact h1
    · exact Or.inr h1
  · intro b' hs
    by_cases hbb : b = b'
    · subst hbb
      rw [JMap.get_erase_self _ _ h.nodupC] at hs
      simp at hs
    · rw [JMap.get_erase_ne _ _ _ hbb] at hs
      exact h.boundCacheC b' hs
  · intro b' hs
    by_cases hbb : b = b'
    · subst hbb
      rw [JMap.get_erase_self _ _ hnodupE] at hs
      simp at hs
    · rw [JMap.get_erase_ne _ _ _ hbb] at hs
      exact h.boundCacheE b' hs
  · exact h.boundDiskC
  · exact h.boundDiskE
  · rw [JMap.keys_erase, JMap.keys_erase, h.keysEq]
  · exact JMap.nodup_keys_erase _ _ h.nodupC

/-- Evicting one batch preserves the invariant. -/
theorem evictOne_inv {d : Nat} {l : List (GraphChunkData × Embedding)} {st : StoreState}
    (h : Inv d l st) (b : Nat) : Inv d l (evictOne b st) := by
  have h1 := flushOne_inv h b
  obtain ⟨hcfg, hidx, hcc, hec, hstale1, hstale2, hcf, hef⟩ := flushOne_spec st b
  show Inv d l { flushOne b st with
    chunksCache := JMap.erase (flushOne b st).chunksCache b,
    embeddingsCache := JMap.erase (flushOne b st).embeddingsCache b }
  apply eraseCaches_inv h1 b
  · cases hcb : JMap.get st.chunksCache b with
    | none =>
        left
        rw [hcc]
        exact hcb
    | some cs =>
        right
        simp only [hcb] at hcf
        rw [hcf, JMap.get_set_self, h.cacheC b cs hcb]
  · cases hce : JMap.get st.embeddingsCache b with
    | none =>
        left
        rw [hec]
        exact hce
    | some es =>
        right
        simp only [hce] at hef
        rw [hef, JMap.get_set_self, h.cacheE b es hce, h.dim_eq]

/-- The eviction loop preserves the invariant. -/
theorem evictFold_inv {d : Nat} {l : List (GraphChunkData × Embedding)} (L : List Nat) :
    ∀ st, Inv d l st → Inv d l (L.foldl (fun s b => evictOne b s) st) := by
  induction L with
  | nil => intro st h; exact h
  | cons a L ih =>
      intro st h
      exact ih _ (evictOne_inv h a)

/-- evictOldCaches preserves the invariant. -/
theorem evictOldCaches_inv {d : Nat} {l : List (GraphChunkData × Embedding)} {st : StoreState}
    (h : Inv d l st) (keep : Nat) : Inv d l (evictOldCaches keep st) := by
  unfold evictOldCaches
  split
  · exact evictFold_inv _ st h
  · exact h

/-- A batch strictly below the tail batch is full. -/
theorem full_of_ne_tail (b n : Nat) (hlt : b * BATCH_SIZE < n) (hne : b ≠ n / BATCH_SIZE) :
    (b + 1) * BATCH_SIZE ≤ n := by
  simp only [BATCH_SIZE] at hlt hne ⊢
  omega

end GraphStore

namespace GraphStore

/-- Appending one pair at the tail batch (what `addChunk` does after its
eviction check) extends the invariant by one record. -/
theorem appendTail_inv {d : Nat} {l : List (GraphChunkData × Embedding)} {st : StoreState}
    (h : Inv d l st) (c : GraphChunkData) (e : Embedding) :
    Inv d (l ++ [(c, e)])
      { st with
        chunksCache := JMap.set st.chunksCache (l.length / BATCH_SIZE)
          (sliceAt (l.map Prod.fst) (l.length / BATCH_SIZE) ++ [c]),
        embeddingsCache := JMap.set st.embeddingsCache (l.length / BATCH_SIZE)
          (sliceAt (l.map Prod.snd) (l.length / BATCH_SIZE) ++ [e]),
        index := { st.index with chunkCount := st.index.chunkCount + 1 } } := by
  have hdiv : l.length / BATCH_SIZE * BATCH_SIZE ≤ l.length := Nat.div_mul_le_self _ _
  have hmapF : (l ++ [(c, e)]).map Prod.fst = l.map Prod.fst ++ [c] := by simp
  have hmapS : (l ++ [(c, e)]).map Prod.snd = l.map Prod.snd ++ [e] := by simp
  have hlenF : (l.map Prod.fst).length = l.length := List.length_map _ _
  have hlenS : (l.map Prod.snd).length = l.length := List.length_map _ _
  have hsliceF : ∀ b', b' * BATCH_SIZE < l.length → b' ≠ l.length / BATCH_SIZE →
      sliceAt ((l ++ [(c, e)]).map Prod.fst) b' = sliceAt (l.map Prod.fst) b' := by
    intro b' hb hne
    rw [hmapF]
    exact sliceAt_append_of_lt _ c b' (by rw [hlenF]; exact full_of_ne_tail b' l.length hb hne)
  have hsliceS : ∀ b', b' * BATCH_SIZE < l.length → b' ≠ l.length / BATCH_SIZE →
      sliceAt ((l ++ [(c, e)]).map Prod.snd) b' = sliceAt (l.map Prod.snd) b' := by
    intro b' hb hne
    rw [hmapS]
    exact sliceAt_append_of_lt _ e b' (by rw [hlenS]; exact full_of_ne_tail b' l.length hb hne)
  have htailF : sliceAt ((l ++ [(c, e)]).map Prod.fst) (l.length / BATCH_SIZE) =
      sliceAt (l.map Prod.fst) (l.length / BATCH_SIZE) ++ [c] := by
    rw [hmapF]
    have := sliceAt_append_tail (l.map Prod.fst) c
    rwa [hlenF] at this
  have htailS : sliceAt ((l ++ [(c, e)]).map Prod.snd) (l.length / BATCH_SIZE) =
      sliceAt (l.map Prod.snd) (l.length / BATCH_SIZE) ++ [e] := by
    rw [hmapS]
    have := sliceAt_append_tail (l.map Prod.snd) e
    rwa [hlenS] at this
  constructor <;> simp only []
  · rw [h.count_eq]
    simp
  · exact h.dim_eq
  · exact h.version_eq
  · intro b' cs hget
    by_cases hbb : l.length / BATCH_SIZE = b'
    · subst hbb
      rw [JMap.get_set_self] at hget
      simp only [Option.some.injEq] at hget
      rw [← hget, htailF]
    · rw [JMap.get_set_ne _ _ _ _ hbb] at hget
      have hb := h.boundCacheC b' (by rw [hget]; rfl)
      rw [hsliceF b' hb (fun hc => hbb hc.symm)]
      exact h.cacheC b' cs hget
  · intro b' es hget
    by_cases hbb : l.length / BATCH_SIZE = b'
    · subst hbb
      rw [JMap.get_set_self] at hget
      simp only [Option.some.injEq] at hget
      rw [← hget, htailS]
    · rw [JMap.get_set_ne _ _ _ _ hbb] at hget
      have hb := h.boundCacheE b' (by rw [hget]; rfl)
      rw [hsliceS b' hb (fun hc => hbb hc.symm)]
      exact h.cacheE b' es hget
  · intro b' f hnone hget
    by_cases hbb : l.length / BATCH_SIZE = b'
    · subst hbb
      rw [JMap.get_set_self] at hnone
      exact absurd hnone (by simp)
    · rw [JMap.get_set_ne _ _ _ _ hbb] at hnone
      have hb := h.boundDiskC b' (by rw [hget]; rfl)
      rw [hsliceF b' hb (fun hc => hbb hc.symm)]
      exact h.diskC b' f hnone hget
  · intro b' bs hnone hget
    by_cases hbb : l.length / BATCH_SIZE = b'
    · subst hbb
      rw [JMap.get_set_self] at hnone
      exact absurd hnone (by simp)
    · rw [JMap.get_set_ne _ _ _ _ hbb] at hnone
      have hb := h.boundDiskE b' (by rw [hget]; rfl)
      rw [hsliceS b' hb (fun hc => hbb hc.symm)]
      exact h.diskE b' bs hnone hget
  · intro b' hb'
    by_cases hbb : l.length / BATCH_SIZE = b'
    · subst hbb
      left
      rw [JMap.get_set_self]
      rfl
    · have hb1 : b' * BATCH_SIZE ≤ l.length := by
        simp only [List.length_append, List.length_cons, List.length_nil] at hb'
        omega
      have hb2 : b' * BATCH_SIZE < l.length := by
        rcases Nat.lt_or_ge (b' * BATCH_SIZE) l.length with hlt | hge
        · exact hlt
        · exfalso
          apply hbb
          have heq : b' * BATCH_SIZE = l.length := le_antisymm hb1 hge
          simp only [BATCH_SIZE] at heq ⊢
          omega
      rcases h.coverC b' hb2 with h1 | h1
      · left
        rw [JMap.get_set_ne _ _ _ _ hbb]
        exact h1
      · exact Or.inr h1
  · intro b' hb'
    by_cases hbb : l.length / BATCH_SIZE = b'
    · subst hbb
      left
      rw [JMap.get_set_self]
      rfl
    · have hb1 : b' * BATCH_SIZE ≤ l.length := by
        simp only [List.length_append, List.length_cons, List.length_nil] at hb'
        omega
      have hb2 : b' * BATCH_SIZE < l.length := by
        rcases Nat.lt_or_ge (b' * BATCH_SIZE) l.length with hlt | hge
        · exact hlt
        · exfalso
          apply hbb
          have heq : b' * BATCH_SIZE = l.length := le_antisymm hb1 hge
          simp only [BATCH_SIZE] at heq ⊢
          omega
      rcases h.coverE b' hb2 with h1 | h1
      · left
        rw [JMap.get_set_ne _ _ _ _ hbb]
        exact h1
      · exact Or.inr h1
  · intro b' hs
    simp only [List.length_append, List.length_cons, List.length_nil]
    by_cases hbb : l.length / BATCH_SIZE = b'
    · subst hbb
      omega
    · rw [JMap.get_set_ne _ _ _ _ hbb] at hs
      have := h.boundCacheC b' hs
      omega
  · intro b' hs
    simp only [List.length_append, List.length_cons, List.length_nil]
    by_cases hbb : l.length / BATCH_SIZE = b'
    · subst hbb
      omega
    · rw [JMap.get_set_ne _ _ _ _ hbb] at hs
      have := h.boundCacheE b' hs
      omega
  · intro b' hs
    simp only [List.length_append, List.length_cons, List.length_nil]
    have := h.boundDiskC b' hs
    omega
  · intro b' hs
    simp only [List.length_append, List.length_cons, List.length_nil]
    have := h.boundDiskE b' hs
    omega
  · by_cases hmem : (l.length / BATCH_SIZE) ∈ JMap.keys st.chunksCache
    · have hmem2 : (l.length / BATCH_SIZE) ∈ JMap.keys st.embeddingsCache := h.keysEq ▸ hmem
      rw [JMap.keys_set_of_mem _ _ _ hmem, JMap.keys_set_of_mem _ _ _ hmem2, h.keysEq]
    · have hmem2 : (l.length / BATCH_SIZE) ∉ JMap.keys st.embeddingsCache :=
        fun hc => hmem (h.keysEq.symm ▸ hc)
      rw [JMap.keys_set_of_not_mem _ _ _ hmem, JMap.keys_set_of_not_mem _ _ _ hmem2, h.keysEq]
  · exact JMap.nodup_keys_set _ _ _ h.nodupC

end GraphStore

namespace GraphStore

/-- addChunk extends the invariant by the appended pair. -/
theorem addChunk_inv {d : Nat} {l : List (GraphChunkData × Embedding)} {st : StoreState}
    (h : Inv d l st) (hWF : WFPairs d l) (c : GraphChunkData) (e : Embedding) :
    Inv d (l ++ [(c, e)]) (addChunk c e st) := by
  have hbn : getBatchNumber st.index.chunkCount = l.length / BATCH_SIZE := by
    rw [h.count_eq]
    rfl
  have h1 : Inv d l (evictOldCaches (getBatchNumber st.index.chunkCount) st) :=
    evictOldCaches_inv h _
  rw [hbn] at h1
  unfold addChunk
  dsimp only
  rw [hbn]
  rw [h1.loadC, h1.loadE hWF]
  exact appendTail_inv h1 c e

/-- addList extends the invariant by all appended pairs. -/
theorem addList_inv {d : Nat} (pairs : List (GraphChunkData × Embedding)) :
    ∀ (l : List (GraphChunkData × Embedding)) (st : StoreState),
    Inv d l st → WFPairs d (l ++ pairs) → Inv d (l ++ pairs) (addList pairs st) := by
  induction pairs with
  | nil =>
      intro l st h _
      simpa [addList] using h
  | cons p ps ih =>
      intro l st h hWF
      have hWFl : WFPairs d l := fun q hq => hWF q (by simp [hq])
      have h1 : Inv d (l ++ [p]) (addChunk p.1 p.2 st) := addChunk_inv h hWFl p.1 p.2
      have h2 := ih (l ++ [p]) (addChunk p.1 p.2 st) h1 (by simpa using hWF)
      simpa [addList, List.foldl_cons] using h2

/-- A store whose config has just been set over an empty directory satisfies
the invariant for the empty history. -/
theorem initial_inv (d : Nat) (t : Rat) : Inv d [] (setConfig d t initialState) := by
  constructor <;> intros <;>
    simp_all [setConfig, saveConfig, initialState, openStore, loadConfig,
      loadIndex, createEmptyConfig, createEmptyIndex, JMap.get, JMap.keys, BATCH_SIZE]

end GraphStore

namespace GraphStore

/-- The flush loop of `save` leaves config, index, both caches and the two
metadata files unchanged. -/
theorem saveFold_frame (K : List Nat) : ∀ st : StoreState,
    (K.foldl (fun s b => flushOne b s) st).config = st.config ∧
    (K.foldl (fun s b => flushOne b s) st).index = st.index ∧
    (K.foldl (fun s b => flushOne b s) st).chunksCache = st.chunksCache ∧
    (K.foldl (fun s b => flushOne b s) st).embeddingsCache = st.embeddingsCache ∧
    (K.foldl (fun s b => flushOne b s) st).disk.configFile = st.disk.configFile ∧
    (K.foldl (fun s b => flushOne b s) st).disk.indexFile = st.disk.indexFile := by
  induction K with
  | nil => intro st; exact ⟨rfl, rfl, rfl, rfl, rfl, rfl⟩
  | cons a K ih =>
      intro st
      obtain ⟨h1, h2, h3, h4, h5, h6⟩ := ih (flushOne a st)
      obtain ⟨g1, g2, g3, g4, g5, g6, _, _⟩ := flushOne_spec st a
      rw [List.foldl_cons]
      exact ⟨h1.trans g1, h2.trans g2, h3.trans g3, h4.trans g4, h5.trans g5, h6.trans g6⟩

/-- Batch files whose number the flush loop never visits are untouched. -/
theorem saveFold_not_mem (K : List Nat) : ∀ (st : StoreState) (b : Nat), b ∉ K →
    JMap.get ((K.foldl (fun s b => flushOne b s) st)).disk.chunkFiles b =
      JMap.get st.disk.chunkFiles b ∧
    JMap.get ((K.foldl (fun s b => flushOne b s) st)).disk.embFiles b =
      JMap.get st.disk.embFiles b := by
  induction K with
  | nil => intro st b _; exact ⟨rfl, rfl⟩
  | cons a K ih =>
      intro st b hb
      have hba : b ≠ a := fun hc => hb (by simp [hc])
      have hbK : b ∉ K := fun hc => hb (by simp [hc])
      rw [List.foldl_cons]
      obtain ⟨h1, h2⟩ := ih (flushOne a st) b hbK
      obtain ⟨_, _, _, _, _, _, g7, g8⟩ := flushOne_spec st a
      constructor
      · rw [h1, g7]
        cases JMap.get st.chunksCache a with
        | some cs => exact JMap.get_set_ne _ _ _ _ (Ne.symm hba)
        | none => rfl
      · rw [h2, g8]
        cases JMap.get st.embeddingsCache a with
        | some es => exact JMap.get_set_ne _ _ _ _ (Ne.symm hba)
        | none => rfl

/-- Batch files the flush loop visits end up holding the cached value (when
that batch is cached), and are otherwise untouched. -/
theorem saveFold_mem (K : List Nat) : ∀ (st : StoreState) (b : Nat), b ∈ K →
    (JMap.get ((K.foldl (fun s b => flushOne b s) st)).disk.chunkFiles b =
      match JMap.get st.chunksCache b with
      | some cs => some (ChunkFile.parseable cs)
      | none => JMap.get st.disk.chunkFiles b) ∧
    (JMap.get ((K.foldl (fun s b => flushOne b s) st)).disk.embFiles b =
      match JMap.get st.embeddingsCache b with
      | some es => some (encodeEmbeddings st.config.dimension es)
      | none => JMap.get st.disk.embFiles b) := by
  induction K with
  | nil => intro st b hb; simp at hb
  | cons a K ih =>
      intro st b hb
      rw [List.foldl_cons]
      obtain ⟨g1, g2, g3, g4, g5, g6, g7, g8⟩ := flushOne_spec st a
      have hChunkNone : JMap.get st.chunksCache b = none →
          JMap.get (flushOne a st).disk.chunkFiles b = JMap.get st.disk.chunkFiles b := by
        intro hcb
        rw [g7]
        by_cases hab : b = a
        · subst hab
          rw [hcb]
        · cases JMap.get st.chunksCache a with
          | some cs => exact JMap.get_set_ne _ _ _ _ (Ne.symm hab)
          | none => rfl
      have hEmbNone : JMap.get st.embeddingsCache b = none →
          JMap.get (flushOne a st).disk.embFiles b = JMap.get st.disk.embFiles b := by
        intro hce
        rw [g8]
        by_cases hab : b = a
        · subst hab
          rw [hce]
        · cases JMap.get st.embeddingsCache a with
          | some es => exact JMap.get_set_ne _ _ _ _ (Ne.symm hab)
          | none => rfl
      by_cases hbK : b ∈ K
      · obtain ⟨h1, h2⟩ := ih (flushOne a st) b hbK
        rw [g3] at h1
        rw [g4, g1] at h2
        constructor
        · cases hcb : JMap.get st.chunksCache b with
          | some cs => rw [h1, hcb]
          | none => rw [h1, hcb, hChunkNone hcb]
        · cases hce : JMap.get st.embeddingsCache b with
          | some es => rw [h2, hce]
          | none => rw [h2, hce, hEmbNone hce]
      · have hab : b = a := by
          rcases List.mem_cons.mp hb with h' | h'
          · exact h'
          · exact absurd h' hbK
        subst hab
        obtain ⟨h1, h2⟩ := saveFold_not_mem K (flushOne b st) b hbK
        constructor
        · rw [h1, g7]
          cases hcb : JMap.get st.chunksCache b with
          | some cs => simp only [JMap.get_set_self]
          | none => rfl
        · rw [h2, g8]
          cases hce : JMap.get st.embeddingsCache b with
          | some es => simp only [JMap.get_set_self]
          | none => rfl

end GraphStore

namespace GraphStore

/-- Full description of the state after `save`: caches cleared, config and
index persisted, every in-range batch pair on disk with the current slices,
nothing on disk beyond the last batch. -/
theorem save_spec {d : Nat} {l : List (GraphChunkData × Embedding)} {st : StoreState}
    (h : Inv d l st) :
    (save st).chunksCache = [] ∧
    (save st).embeddingsCache = [] ∧
    (save st).config = st.config ∧
    (save st).index = st.index ∧
    (save st).disk.configFile = some st.config ∧
    (save st).disk.indexFile = some st.index ∧
    (∀ b, b * BATCH_SIZE < l.length →
      JMap.get (save st).disk.chunkFiles b =
        some (ChunkFile.parseable (sliceAt (l.map Prod.fst) b)) ∧
      JMap.get (save st).disk.embFiles b =
        some (encodeEmbeddings d (sliceAt (l.map Prod.snd) b))) ∧
    (∀ b, l.length ≤ b * BATCH_SIZE →
      JMap.get (save st).disk.chunkFiles b = none ∧
      JMap.get (save st).disk.embFiles b = none) := by
  obtain ⟨f1, f2, f3, f4, f5, f6⟩ := saveFold_frame (JMap.keys st.chunksCache) st
  have hgetC : (save st).disk.chunkFiles =
      ((JMap.keys st.chunksCache).foldl (fun s b => flushOne b s) st).disk.chunkFiles := rfl
  have hgetE : (save st).disk.embFiles =
      ((JMap.keys st.chunksCache).foldl (fun s b => flushOne b s) st).disk.embFiles := rfl
  refine ⟨rfl, rfl, by simp [save, saveIndex, saveConfig, f1],
    by simp [save, saveIndex, saveConfig, f2],
    by simp [save, saveIndex, saveConfig, f1],
    by simp [save, saveIndex, saveConfig, f2], ?_, ?_⟩
  · intro b hb
    constructor
    · rw [hgetC]
      cases hcb : JMap.get st.chunksCache b with
      | some cs =>
          have hmem : b ∈ JMap.keys st.chunksCache :=
            (JMap.mem_keys_iff_get _ _).mpr (by rw [hcb]; rfl)
          obtain ⟨h1, _⟩ := saveFold_mem (JMap.keys st.chunksCache) st b hmem
          rw [h1, hcb, h.cacheC b cs hcb]
      | none =>
          have hmem : b ∉ JMap.keys st.chunksCache := by
            rw [JMap.mem_keys_iff_get, hcb]
            simp
          obtain ⟨h1, _⟩ := saveFold_not_mem (JMap.keys st.chunksCache) st b hmem
          rw [h1]
          rcases h.coverC b hb with h2 | h2
          · rw [hcb] at h2; simp at h2
          · cases hd : JMap.get st.disk.chunkFiles b with
            | some f => rw [h.diskC b f hcb hd]
            | none => rw [hd] at h2; simp at h2
    · rw [hgetE]
      cases hce : JMap.get st.embeddingsCache b with
      | some es =>
          have hmem : b ∈ JMap.keys st.chunksCache := by
            rw [h.keysEq, JMap.mem_keys_iff_get, hce]
            rfl
          obtain ⟨_, h1⟩ := saveFold_mem (JMap.keys st.chunksCache) st b hmem
          rw [h1, hce, h.cacheE b es hce, h.dim_eq]
      | none =>
          have hmem : b ∉ JMap.keys st.chunksCache := by
            rw [h.keysEq, JMap.mem_keys_iff_get, hce]
            simp
          obtain ⟨_, h1⟩ := saveFold_not_mem (JMap.keys st.chunksCache) st b hmem
          rw [h1]
          rcases h.coverE b hb with h2 | h2
          · rw [hce] at h2; simp at h2
          · cases hd : JMap.get st.disk.embFiles b with
            | some bs => rw [h.diskE b bs hce hd]
            | none => rw [hd] at h2; simp at h2
  · intro b hb
    have hmem : b ∉ JMap.keys st.chunksCache := by
      rw [JMap.mem_keys_iff_get]
      intro hs
      have := h.boundCacheC b hs
      omega
    obtain ⟨h1, h2⟩ := saveFold_not_mem (JMap.keys st.chunksCache) st b hmem
    constructor
    · rw [hgetC, h1]
      cases hd : JMap.get st.disk.chunkFiles b with
      | some f =>
          have := h.boundDiskC b (by rw [hd]; rfl)
          omega
      | none => rfl
    · rw [hgetE, h2]
      cases hd : JMap.get st.disk.embFiles b with
      | some bs =>
          have := h.boundDiskE b (by rw [hd]; rfl)
          omega
      | none => rfl

/-- A fresh store instance opened over the directory written by `save`
satisfies the invariant for the same history. -/
theorem openStore_save_inv {d : Nat} {l : List (GraphChunkData × Embedding)} {st : StoreState}
    (h : Inv d l st) : Inv d l (openStore (save st).disk) := by
  obtain ⟨s1, s2, s3, s4, s5, s6, s7, s8⟩ := save_spec h
  have hcfg : (openStore (save st).disk).config = st.config := by
    simp [openStore, loadConfig, s5, h.version_eq]
  have hidx : (openStore (save st).disk).index = st.index := by
    simp [openStore, loadIndex, s6]
  have hdisk : (openStore (save st).disk).disk = (save st).disk := rfl
  constructor
  · rw [hidx]; exact h.count_eq
  · rw [hcfg]; exact h.dim_eq
  · rw [hcfg]; exact h.version_eq
  · intro b cs hget
    simp [openStore, JMap.get] at hget
  · intro b es hget
    simp [openStore, JMap.get] at hget
  · intro b f _ hget
    rw [hdisk] at hget
    by_cases hb : b * BATCH_SIZE < l.length
    · rw [(s7 b hb).1] at hget
      simp only [Option.some.injEq] at hget
      exact hget.symm
    · rw [(s8 b (by omega)).1] at hget
      simp at hget
  · intro b bs _ hget
    rw [hdisk] at hget
    by_cases hb : b * BATCH_SIZE < l.length
    · rw [(s7 b hb).2] at hget
      simp only [Option.some.injEq] at hget
      exact hget.symm
    · rw [(s8 b (by omega)).2] at hget
      simp at hget
  · intro b hb
    right
    rw [hdisk, (s7 b hb).1]
    rfl
  · intro b hb
    right
    rw [hdisk, (s7 b hb).2]
    rfl
  · intro b hs
    simp [openStore, JMap.get] at hs
  · intro b hs
    simp [openStore, JMap.get] at hs
  · intro b hs
    rw [hdisk] at hs
    by_cases hb : b * BATCH_SIZE < l.length
    · exact hb
    · rw [(s8 b (by omega)).1] at hs
      simp at hs
  · intro b hs
    rw [hdisk] at hs
    by_cases hb : b * BATCH_SIZE < l.length
    · exact hb
    · rw [(s8 b (by omega)).2] at hs
      simp at hs
  · rfl
  · simp [openStore, JMap.keys]

end GraphStore

namespace GraphStore

/-- Well-formedness facts for one slice of an embedding history. -/
theorem sliceWF {d : Nat} (l : List (GraphChunkData × Embedding)) (hWF : WFPairs d l) (b : Nat) :
    (∀ e ∈ sliceAt (l.map Prod.snd) b, e.length = d) ∧
    (∀ e ∈ sliceAt (l.map Prod.snd) b, ∀ v ∈ e, v < 4294967296) ∧
    (sliceAt (l.map Prod.snd) b).length < 4294967296 := by
  have hsub : ∀ e ∈ sliceAt (l.map Prod.snd) b, e ∈ l.map Prod.snd := by
    intro e he
    exact List.drop_subset _ _ (List.take_subset _ _ he)
  refine ⟨?_, ?_, ?_⟩
  · intro e he
    rcases List.mem_map.mp (hsub e he) with ⟨p, hp, hpe⟩
    rw [← hpe]
    exact (hWF p hp).1
  · intro e he
    rcases List.mem_map.mp (hsub e he) with ⟨p, hp, hpe⟩
    rw [← hpe]
    exact (hWF p hp).2
  · rw [sliceAt_length]
    simp only [BATCH_SIZE]
    omega

end GraphStore

/-! ## Claim theorems -/

open GraphStore

/-- C3: for a list of `count` vectors of the configured dimension (modelled
by their float32 bit patterns), `encodeEmbeddings` produces exactly
`4 + count*dimension*4` bytes — a 4-byte little-endian unsigned count
followed by the densely packed little-endian 32-bit floats — and
`decodeEmbeddings` at the same dimension reproduces the original nested
list exactly. -/
theorem C3_codec_exact (d : Nat) (l : List Embedding)
    (hlen : ∀ e ∈ l, e.length = d) (hval : ∀ e ∈ l, ∀ v ∈ e, v < 4294967296)
    (hcount : l.length < 4294967296) :
    (encodeEmbeddings d l).length = 4 + l.length * d * 4 ∧
    decodeEmbeddings (encodeEmbeddings d l) d = some l :=
  ⟨encodeEmbeddings_length d l hlen, decodeEmbeddings_encode d l hlen hval hcount⟩

/-- C3 witness: the spec's example `[[1.0, 2.0], [3.0, 4.0]]` at dimension 2
(float32 bit patterns 0x3F800000, 0x40000000, 0x40400000, 0x40800000)
encodes to a 20-byte buffer that decodes back to itself. -/
theorem C3_codec_exact_witness :
    (encodeEmbeddings 2 [[1065353216, 1073741824], [1077936128, 1082130432]]).length = 20 ∧
    decodeEmbeddings (encodeEmbeddings 2 [[1065353216, 1073741824], [1077936128, 1082130432]]) 2 =
      some [[1065353216, 1073741824], [1077936128, 1082130432]] := by
  have h := C3_codec_exact 2 [[1065353216, 1073741824], [1077936128, 1082130432]]
    (by decide) (by decide) (by decide)
  exact ⟨h.1.trans (by norm_num), h.2⟩

/-- C10: `clear` leaves the store configuration untouched — `getConfig`
returns the same dimension and threshold, and `config.json` on disk is not
rewritten — while batch files are deleted, the index is reset to zero and
persisted, and the caches are cleared. -/
theorem C10_clear_frame (st : StoreState) :
    getConfig (clear st) = getConfig st ∧
    (clear st).config = st.config ∧
    (clear st).disk.configFile = st.disk.configFile ∧
    (clear st).disk.chunkFiles = [] ∧
    (clear st).disk.embFiles = [] ∧
    (clear st).index.chunkCount = 0 ∧
    (clear st).disk.indexFile = some createEmptyIndex ∧
    (clear st).chunksCache = [] ∧
    (clear st).embeddingsCache = [] := by
  refine ⟨rfl, rfl, rfl, rfl, rfl, rfl, rfl, rfl, rfl⟩

/-- C1: appending any sequence of (chunk, embedding) pairs to a fresh store
whose dimension has been configured, then calling `save()` and constructing
a fresh `GraphStore` on the same directory, reproduces via `getChunks()` /
`getEmbeddings()` the same chunk records in the same order and bit-identical
vectors. -/
theorem C1_roundtrip (d : Nat) (t : Rat) (pairs : List (GraphChunkData × Embedding))
    (hWF : ∀ p ∈ pairs, p.2.length = d ∧ ∀ v ∈ p.2, v < 4294967296) :
    getChunks (openStore (save (addList pairs (setConfig d t initialState))).disk) =
      pairs.map Prod.fst ∧
    getEmbeddings (openStore (save (addList pairs (setConfig d t initialState))).disk) =
      pairs.map Prod.snd := by
  have h0 := initial_inv d t
  have h1 := addList_inv pairs [] _ h0 (by simpa [WFPairs] using hWF)
  simp only [List.nil_append] at h1
  have h2 := openStore_save_inv h1
  exact ⟨h2.getChunks_eq, h2.getEmbeddings_eq (by simpa [WFPairs] using hWF)⟩

/-- C1 witness at a concrete input: one appended record round-trips. -/
theorem C1_roundtrip_witness :
    (∀ p ∈ [((⟨"id0", "hello", "src0", 0⟩ : GraphChunkData), ([5, 4294967295] : Embedding))],
      (Prod.snd p).length = 2 ∧ ∀ v ∈ Prod.snd p, v < 4294967296) ∧
    (getChunks (openStore (save (addList [((⟨"id0", "hello", "src0", 0⟩ : GraphChunkData), ([5, 4294967295] : Embedding))]
        (setConfig 2 (1 / 2) initialState))).disk) =
      [(⟨"id0", "hello", "src0", 0⟩ : GraphChunkData)] ∧
    getEmbeddings (openStore (save (addList [((⟨"id0", "hello", "src0", 0⟩ : GraphChunkData), ([5, 4294967295] : Embedding))]
        (setConfig 2 (1 / 2) initialState))).disk) =
      [[5, 4294967295]]) :=
  ⟨by decide, C1_roundtrip 2 (1 / 2) [((⟨"id0", "hello", "src0", 0⟩ : GraphChunkData), ([5, 4294967295] : Embedding))] (by decide)⟩

/-- C9: with no intervening save, `getChunks()` / `getEmbeddings()` return
every appended record in append order (unsaved appends are visible because
loads consult the cache first), and the length of `getChunks()` equals the
stored `chunkCount`. -/
theorem C9_unsaved_visible (d : Nat) (t : Rat) (pairs : List (GraphChunkData × Embedding))
    (hWF : ∀ p ∈ pairs, p.2.length = d ∧ ∀ v ∈ p.2, v < 4294967296) :
    getChunks (addList pairs (setConfig d t initialState)) = pairs.map Prod.fst ∧
    getEmbeddings (addList pairs (setConfig d t initialState)) = pairs.map Prod.snd ∧
    (getChunks (addList pairs (setConfig d t initialState))).length =
      (addList pairs (setConfig d t initialState)).index.chunkCount := by
  have h0 := initial_inv d t
  have h1 := addList_inv pairs [] _ h0 (by simpa [WFPairs] using hWF)
  simp only [List.nil_append] at h1
  refine ⟨h1.getChunks_eq, h1.getEmbeddings_eq (by simpa [WFPairs] using hWF), ?_⟩
  rw [h1.getChunks_eq, h1.count_eq, List.length_map]

/-- C9 witness at a concrete input. -/
theorem C9_unsaved_visible_witness :
    (∀ p ∈ [((⟨"id1", "txt", "srcA", 1⟩ : GraphChunkData), ([7] : Embedding))],
      (Prod.snd p).length = 1 ∧ ∀ v ∈ Prod.snd p, v < 4294967296) ∧
    (getChunks (addList [((⟨"id1", "txt", "srcA", 1⟩ : GraphChunkData), ([7] : Embedding))] (setConfig 1 (3 / 4) initialState)) =
      [(⟨"id1", "txt", "srcA", 1⟩ : GraphChunkData)] ∧
    getEmbeddings (addList [((⟨"id1", "txt", "srcA", 1⟩ : GraphChunkData), ([7] : Embedding))] (setConfig 1 (3 / 4) initialState)) =
      [[7]] ∧
    (getChunks (addList [((⟨"id1", "txt", "srcA", 1⟩ : GraphChunkData), ([7] : Embedding))] (setConfig 1 (3 / 4) initialState))).length =
      (addList [((⟨"id1", "txt", "srcA", 1⟩ : GraphChunkData), ([7] : Embedding))] (setConfig 1 (3 / 4) initialState)).index.chunkCount) :=
  ⟨by decide, C9_unsaved_visible 1 (3 / 4) [((⟨"id1", "txt", "srcA", 1⟩ : GraphChunkData), ([7] : Embedding))] (by decide)⟩


/-- C4: appending exactly `k*BATCH_SIZE + r` records (`0 ≤ r < BATCH_SIZE`)
to a fresh configured store and then flushing produces exactly
`ceilDiv total BATCH_SIZE` batch-file pairs on disk: each batch `b < k`
holds exactly `BATCH_SIZE` records, if `r > 0` the final batch `k` holds
exactly `r` records, chunk and embedding files exist for exactly the batch
numbers below `ceilDiv total BATCH_SIZE`, and each embedding file decodes
to the vectors of its batch. -/
theorem C4_batch_layout (d : Nat) (t : Rat) (pairs : List (GraphChunkData × Embedding))
    (k r : Nat) (hkr : pairs.length = k * BATCH_SIZE + r) (hr : r < BATCH_SIZE)
    (hWF : ∀ p ∈ pairs, p.2.length = d ∧ ∀ v ∈ p.2, v < 4294967296) :
    (∀ b, b < k →
      ∃ cs, JMap.get (save (addList pairs (setConfig d t initialState))).disk.chunkFiles b =
          some (ChunkFile.parseable cs) ∧ cs.length = BATCH_SIZE) ∧
    (0 < r →
      ∃ cs, JMap.get (save (addList pairs (setConfig d t initialState))).disk.chunkFiles k =
          some (ChunkFile.parseable cs) ∧ cs.length = r) ∧
    (∀ b, (JMap.get (save (addList pairs (setConfig d t initialState))).disk.chunkFiles b).isSome ↔
        b < ceilDiv pairs.length BATCH_SIZE) ∧
    (∀ b, (JMap.get (save (addList pairs (setConfig d t initialState))).disk.embFiles b).isSome ↔
        b < ceilDiv pairs.length BATCH_SIZE) ∧
    (∀ b, b < ceilDiv pairs.length BATCH_SIZE →
      ∃ bs, JMap.get (save (addList pairs (setConfig d t initialState))).disk.embFiles b = some bs ∧
        decodeEmbeddings bs d = some (sliceAt (pairs.map Prod.snd) b)) := by
  have h0 := initial_inv d t
  have h1 := addList_inv pairs [] _ h0 (by simpa [WFPairs] using hWF)
  simp only [List.nil_append] at h1
  obtain ⟨s1, s2, s3, s4, s5, s6, s7, s8⟩ := save_spec h1
  have hlenF : (pairs.map Prod.fst).length = pairs.length := List.length_map _ _
  refine ⟨?_, ?_, ?_, ?_, ?_⟩
  · intro b hb
    have hcov : b * BATCH_SIZE < pairs.length := by
      simp only [BATCH_SIZE] at hkr hr ⊢
      omega
    refine ⟨sliceAt (pairs.map Prod.fst) b, (s7 b hcov).1, ?_⟩
    rw [sliceAt_length, hlenF]
    simp only [BATCH_SIZE] at hkr hr ⊢
    omega
  · intro hrpos
    have hcov : k * BATCH_SIZE < pairs.length := by
      simp only [BATCH_SIZE] at hkr hr ⊢
      omega
    refine ⟨sliceAt (pairs.map Prod.fst) k, (s7 k hcov).1, ?_⟩
    rw [sliceAt_length, hlenF]
    simp only [BATCH_SIZE] at hkr hr ⊢
    omega
  · intro b
    constructor
    · intro hs
      by_cases hb : b * BATCH_SIZE < pairs.length
      · rw [lt_ceilDiv_iff]
        exact hb
      · rw [(s8 b (by omega)).1] at hs
        simp at hs
    · intro hb
      rw [(s7 b ((lt_ceilDiv_iff b pairs.length).mp hb)).1]
      rfl
  · intro b
    constructor
    · intro hs
      by_cases hb : b * BATCH_SIZE < pairs.length
      · rw [lt_ceilDiv_iff]
        exact hb
      · rw [(s8 b (by omega)).2] at hs
        simp at hs
    · intro hb
      rw [(s7 b ((lt_ceilDiv_iff b pairs.length).mp hb)).2]
      rfl
  · intro b hb
    have hcov := (lt_ceilDiv_iff b pairs.length).mp hb
    refine ⟨_, (s7 b hcov).2, ?_⟩
    obtain ⟨w1, w2, w3⟩ := sliceWF pairs (by simpa [WFPairs] using hWF) b
    exact decodeEmbeddings_encode d _ w1 w2 w3

/-- C4 witness: one appended record (`k = 0`, `r = 1`) leaves a single
1-record batch file on disk after the flush. -/
theorem C4_batch_layout_witness :
    ((1 : Nat) = 0 * BATCH_SIZE + 1) ∧ ((1 : Nat) < BATCH_SIZE) ∧
    (0 < 1 →
      ∃ cs, JMap.get (save (addList [((⟨"i", "t", "s", 0⟩ : GraphChunkData), ([9] : Embedding))]
          (setConfig 1 (1 / 2) initialState))).disk.chunkFiles 0 =
        some (ChunkFile.parseable cs) ∧ cs.length = 1) :=
  ⟨by decide, by decide,
    (C4_batch_layout 1 (1 / 2) [((⟨"i", "t", "s", 0⟩ : GraphChunkData), ([9] : Embedding))]
      0 1 (by decide) (by decide) (by decide)).2.1⟩

/-! ### The compaction scan -/

namespace GraphStore

/-- The removed count of a batch scan is the number of matching chunks,
independent of the embedding list. -/
theorem scanPair_count (s : String) (cs : List GraphChunkData) (es : List Embedding) :
    (scanPair s cs es).2.2 = (cs.filter (fun c => c.source == s)).length := by
  induction cs generalizing es with
  | nil => simp [scanPair]
  | cons c cs ih =>
      by_cases hc : c.source = s
      · simp [scanPair, hc, ih, List.filter_cons]
      · simp [scanPair, hc, ih, List.filter_cons]

/-- Full description of one batch scan when the lists are aligned: kept
chunks are the non-matching ones in order, kept embeddings are their
per-index partners. -/
theorem scanPair_spec (s : String) (cs : List GraphChunkData) : ∀ es : List Embedding,
    es.length = cs.length →
    (scanPair s cs es).1 = cs.filter (fun c => !(c.source == s)) ∧
    (scanPair s cs es).2.1 =
      ((cs.zip es).filter (fun p => !(p.1.source == s))).map Prod.snd := by
  induction cs with
  | nil =>
      intro es h
      simp [scanPair]
  | cons c cs ih =>
      intro es h
      cases es with
      | nil => simp at h
      | cons e es =>
          simp only [List.length_cons] at h
          obtain ⟨ih1, ih2⟩ := ih es (by omega)
          by_cases hc : c.source = s
          · constructor
            · simp [scanPair, hc, ih1, List.filter_cons]
            · simp [scanPair, hc, ih2, List.zip_cons_cons, List.filter_cons]
          · constructor
            · simp [scanPair, hc, ih1, List.filter_cons]
            · simp [scanPair, hc, ih2, List.zip_cons_cons, List.filter_cons]

/-- The scan loop of `removeChunksBySource`, summed over all batches:
removed count only. -/
theorem scanFold_count (s : String) (st : StoreState) (T : Nat) :
    ((List.range T).foldl
      (fun (acc : List GraphChunkData × List Embedding × Nat) b =>
        let r := scanPair s (loadChunkBatch st b) (loadEmbeddingBatch st b)
        (acc.1 ++ r.1, acc.2.1 ++ r.2.1, acc.2.2 + r.2.2))
      ([], [], 0)).2.2 =
    (((List.range T).flatMap (fun b => loadChunkBatch st b)).filter
      (fun c => c.source == s)).length := by
  induction T with
  | zero => simp
  | succ T ih =>
      rw [List.range_succ, List.foldl_append, List.flatMap_append]
      simp only [List.foldl_cons, List.foldl_nil, List.flatMap_cons, List.flatMap_nil,
        List.append_nil, List.filter_append, List.length_append]
      rw [ih, scanPair_count]

/-- Concatenations of aligned batches have equal lengths. -/
theorem flatLoad_length (st : StoreState) (T : Nat)
    (hal : ∀ b, b < T → (loadEmbeddingBatch st b).length = (loadChunkBatch st b).length) :
    ((List.range T).flatMap (fun b => loadChunkBatch st b)).length =
      ((List.range T).flatMap (fun b => loadEmbeddingBatch st b)).length := by
  induction T with
  | zero => simp
  | succ T ihT =>
      rw [List.range_succ, List.flatMap_append, List.flatMap_append]
      simp only [List.flatMap_cons, List.flatMap_nil, List.append_nil,
        List.length_append, ihT (fun b hb => hal b (by omega)), hal T (by omega)]

/-- The scan loop of `removeChunksBySource`, summed over all batches, under
per-batch alignment. -/
theorem scanFold_spec (s : String) (st : StoreState) (T : Nat)
    (hal : ∀ b, b < T → (loadEmbeddingBatch st b).length = (loadChunkBatch st b).length) :
    ((List.range T).foldl
      (fun (acc : List GraphChunkData × List Embedding × Nat) b =>
        let r := scanPair s (loadChunkBatch st b) (loadEmbeddingBatch st b)
        (acc.1 ++ r.1, acc.2.1 ++ r.2.1, acc.2.2 + r.2.2))
      ([], [], 0)).1 =
      (((List.range T).flatMap (fun b => loadChunkBatch st b)).filter
        (fun c => !(c.source == s))) ∧
    ((List.range T).foldl
      (fun (acc : List GraphChunkData × List Embedding × Nat) b =>
        let r := scanPair s (loadChunkBatch st b) (loadEmbeddingBatch st b)
        (acc.1 ++ r.1, acc.2.1 ++ r.2.1, acc.2.2 + r.2.2))
      ([], [], 0)).2.1 =
      ((((List.range T).flatMap (fun b => loadChunkBatch st b)).zip
          ((List.range T).flatMap (fun b => loadEmbeddingBatch st b))).filter
        (fun p => !(p.1.source == s))).map Prod.snd := by
  induction T with
  | zero => simp
  | succ T ih =>
      obtain ⟨ih1, ih2⟩ := ih (fun b hb => hal b (by omega))
      obtain ⟨sp1, sp2⟩ := scanPair_spec s (loadChunkBatch st T) (loadEmbeddingBatch st T)
        (hal T (by omega))
      have hlenC := flatLoad_length st T (fun b hb => hal b (by omega))
      rw [List.range_succ, List.foldl_append, List.flatMap_append, List.flatMap_append]
      simp only [List.foldl_cons, List.foldl_nil, List.flatMap_cons, List.flatMap_nil,
        List.append_nil]
      constructor
      · rw [List.filter_append, ih1, sp1]
      · rw [List.zip_append hlenC, List.filter_append, List.map_append, ih2, sp2]

end GraphStore

namespace JMap

theorem set_of_not_mem {α : Type} (m : List (Nat × α)) (k : Nat) (v : α) (h : k ∉ keys m) :
    set m k v = m ++ [(k, v)] := by
  induction m with
  | nil => simp [set]
  | cons kv m ih =>
      have h1 : kv.1 ≠ k :=
        fun hc => h ((mem_keys_cons kv m k).mpr (Or.inl hc.symm))
      have h2 : k ∉ keys m :=
        fun hc => h ((mem_keys_cons kv m k).mpr (Or.inr hc))
      simp [set, h1, ih h2]

theorem get_keyed_map {α : Type} (L : List Nat) (f : Nat → α) (b : Nat) :
    get (L.map (fun k => (k, f k))) b = if b ∈ L then some (f b) else none := by
  induction L with
  | nil => simp [get]
  | cons a L ih =>
      by_cases hab : a = b
      · subst hab
        simp [get]
      · simp only [get, if_neg hab, ih]
        by_cases hbL : b ∈ L
        · simp [hbL, Ne.symm hab]
        · simp [hbL, Ne.symm hab]

theorem keys_keyed_map {α : Type} (L : List Nat) (f : Nat → α) :
    keys (L.map (fun k => (k, f k))) = L := by
  induction L with
  | nil => rfl
  | cons a L ih => simp [keys] at ih ⊢; exact ih

end JMap

namespace GraphStore

/-- flatMap only depends on the function's values on members. -/
theorem flatMap_congr_mem {α β : Type} (L : List α) (f g : α → List β)
    (h : ∀ a ∈ L, f a = g a) : L.flatMap f = L.flatMap g := by
  induction L with
  | nil => rfl
  | cons a L ih =>
      simp only [List.flatMap_cons, h a (by simp)]
      rw [ih (fun x hx => h x (by simp [hx]))]

/-- The first components of an index-paired filter are the filtered list. -/
theorem filter_zip_fst {α β : Type} (p : α → Bool) (A : List α) : ∀ B : List β,
    A.length = B.length →
    ((A.zip B).filter (fun q => p q.1)).map Prod.fst = A.filter p := by
  induction A with
  | nil => intro B h; simp
  | cons a A ih =>
      intro B h
      cases B with
      | nil => simp at h
      | cons b B =>
          simp only [List.length_cons] at h
          by_cases hp : p a
          · simp [List.zip_cons_cons, List.filter_cons, hp, ih B (by omega)]
          · simp [List.zip_cons_cons, List.filter_cons, hp, ih B (by omega)]

/-- When nothing matches, removeChunksBySource returns the state unchanged
(the early `return`). -/
theorem remove_noop_of_no_match (s : String) (st : StoreState)
    (h : ∀ c ∈ getChunks st, ¬ c.source = s) :
    removeChunksBySource s st = st := by
  have hcount : (((List.range (ceilDiv st.index.chunkCount BATCH_SIZE)).flatMap
      (fun b => loadChunkBatch st b)).filter (fun c => c.source == s)).length = 0 := by
    rw [List.length_eq_zero]
    refine List.filter_eq_nil_iff.mpr ?_
    intro c hc
    simpa using h c hc
  unfold removeChunksBySource
  dsimp only
  rw [scanFold_count, if_pos hcount]

end GraphStore

/-- C7: `removeChunksBySource` with a source key matching no stored record
is a no-op: the returned state is the input state — no batch-file writes or
deletions, no index rewrite, `chunkCount` unchanged, caches unchanged. -/
theorem C7_remove_noop (s : String) (st : StoreState)
    (h : ∀ c ∈ getChunks st, ¬ c.source = s) :
    removeChunksBySource s st = st :=
  remove_noop_of_no_match s st h

/-- C7 witness: removing source "a" from a store holding only a record of
source "b" leaves the state untouched. -/
theorem C7_remove_noop_witness :
    (∀ c ∈ getChunks (StoreState.mk (GraphConfig.mk "1.0" 0 (7 / 10)) (GraphIndex.mk 1 1000)
        [(0, [GraphChunkData.mk "x" "y" "b" 0])] [(0, [[]])] (Disk.mk [] [] none none)),
      ¬ c.source = "a") ∧
    removeChunksBySource "a" (StoreState.mk (GraphConfig.mk "1.0" 0 (7 / 10)) (GraphIndex.mk 1 1000)
        [(0, [GraphChunkData.mk "x" "y" "b" 0])] [(0, [[]])] (Disk.mk [] [] none none)) =
      StoreState.mk (GraphConfig.mk "1.0" 0 (7 / 10)) (GraphIndex.mk 1 1000)
        [(0, [GraphChunkData.mk "x" "y" "b" 0])] [(0, [[]])] (Disk.mk [] [] none none) :=
  ⟨by decide, C7_remove_noop "a" _ (by decide)⟩

namespace GraphStore

theorem scb_config (b : Nat) (cs : List GraphChunkData) (st : StoreState) :
    (saveChunkBatch b cs st).config = st.config := rfl

theorem scb_index (b : Nat) (cs : List GraphChunkData) (st : StoreState) :
    (saveChunkBatch b cs st).index = st.index := rfl

theorem scb_chunksCache (b : Nat) (cs : List GraphChunkData) (st : StoreState) :
    (saveChunkBatch b cs st).chunksCache = JMap.set st.chunksCache b cs := rfl

theorem scb_embCache (b : Nat) (cs : List GraphChunkData) (st : StoreState) :
    (saveChunkBatch b cs st).embeddingsCache = st.embeddingsCache := rfl

theorem seb_config (b : Nat) (es : List Embedding) (st : StoreState) :
    (saveEmbeddingBatch b es st).config = st.config := rfl

theorem seb_index (b : Nat) (es : List Embedding) (st : StoreState) :
    (saveEmbeddingBatch b es st).index = st.index := rfl

theorem seb_chunksCache (b : Nat) (es : List Embedding) (st : StoreState) :
    (saveEmbeddingBatch b es st).chunksCache = st.chunksCache := rfl

theorem seb_embCache (b : Nat) (es : List Embedding) (st : StoreState) :
    (saveEmbeddingBatch b es st).embeddingsCache = JMap.set st.embeddingsCache b es := rfl

/-- The re-write loop of `removeChunksBySource`: starting from cleared
caches, it leaves one cached batch per rewritten batch, holding the slices
of the kept records. -/
theorem rewriteFold_spec (remC : List GraphChunkData) (remE : List Embedding) (N : Nat)
    (st0 : StoreState) (hc0 : st0.chunksCache = []) (he0 : st0.embeddingsCache = []) :
    ((List.range N).foldl (fun s b =>
        saveEmbeddingBatch b (sliceAt remE b) (saveChunkBatch b (sliceAt remC b) s)) st0).config
      = st0.config ∧
    ((List.range N).foldl (fun s b =>
        saveEmbeddingBatch b (sliceAt remE b) (saveChunkBatch b (sliceAt remC b) s)) st0).index
      = st0.index ∧
    ((List.range N).foldl (fun s b =>
        saveEmbeddingBatch b (sliceAt remE b) (saveChunkBatch b (sliceAt remC b) s)) st0).chunksCache
      = (List.range N).map (fun b => (b, sliceAt remC b)) ∧
    ((List.range N).foldl (fun s b =>
        saveEmbeddingBatch b (sliceAt remE b) (saveChunkBatch b (sliceAt remC b) s)) st0).embeddingsCache
      = (List.range N).map (fun b => (b, sliceAt remE b)) := by
  induction N with
  | zero => simp [hc0, he0]
  | succ N ih =>
      obtain ⟨i1, i2, i3, i4⟩ := ih
      rw [List.range_succ, List.foldl_append]
      simp only [List.foldl_cons, List.foldl_nil]
      refine ⟨?_, ?_, ?_, ?_⟩
      · rw [seb_config, scb_config, i1]
      · rw [seb_index, scb_index, i2]
      · rw [seb_chunksCache, scb_chunksCache, i3,
          JMap.set_of_not_mem _ _ _ (by rw [JMap.keys_keyed_map]; simp)]
        rw [List.map_append]
        rfl
      · rw [seb_embCache, scb_embCache, i4,
          JMap.set_of_not_mem _ _ _ (by rw [JMap.keys_keyed_map]; simp)]
        rw [List.map_append]
        rfl

end GraphStore

namespace GraphStore

theorem si_config (st : StoreState) : (saveIndex st).config = st.config := rfl

theorem si_index (st : StoreState) : (saveIndex st).index = st.index := rfl

theorem si_chunksCache (st : StoreState) : (saveIndex st).chunksCache = st.chunksCache := rfl

theorem si_embCache (st : StoreState) : (saveIndex st).embeddingsCache = st.embeddingsCache := rfl

/-- Description of `removeChunksBySource` in the branch where something was
removed: the count becomes the kept count, and both caches hold exactly the
rewritten batches of kept records. -/
theorem remove_rewrite_spec (s : String) (st : StoreState)
    (hal : ∀ b, b < ceilDiv st.index.chunkCount BATCH_SIZE →
      (loadEmbeddingBatch st b).length = (loadChunkBatch st b).length)
    (h0 : ¬ (((List.range (ceilDiv st.index.chunkCount BATCH_SIZE)).flatMap
        (fun b => loadChunkBatch st b)).filter (fun c => c.source == s)).length = 0) :
    (removeChunksBySource s st).config = st.config ∧
    (removeChunksBySource s st).index.chunkCount =
      ((getChunks st).filter (fun c => !(c.source == s))).length ∧
    (removeChunksBySource s st).chunksCache =
      (List.range (ceilDiv ((getChunks st).filter (fun c => !(c.source == s))).length
        BATCH_SIZE)).map
        (fun b => (b, sliceAt ((getChunks st).filter (fun c => !(c.source == s))) b)) ∧
    (removeChunksBySource s st).embeddingsCache =
      (List.range (ceilDiv ((getChunks st).filter (fun c => !(c.source == s))).length
        BATCH_SIZE)).map
        (fun b => (b, sliceAt ((((getChunks st).zip (getEmbeddings st)).filter
          (fun p => !(p.1.source == s))).map Prod.snd) b)) := by
  obtain ⟨f1, f2⟩ := scanFold_spec s st (ceilDiv st.index.chunkCount BATCH_SIZE) hal
  have hcnt := scanFold_count s st (ceilDiv st.index.chunkCount BATCH_SIZE)
  unfold removeChunksBySource
  dsimp only
  rw [hcnt, if_neg h0, f1, f2]
  refine ⟨?_, ?_, ?_, ?_⟩
  · rw [si_config, (rewriteFold_spec _ _ _ _ rfl rfl).1]
  · rw [si_index, (rewriteFold_spec _ _ _ _ rfl rfl).2.1]
    rfl
  · rw [si_chunksCache, (rewriteFold_spec _ _ _ _ rfl rfl).2.2.1]
    rfl
  · rw [si_embCache, (rewriteFold_spec _ _ _ _ rfl rfl).2.2.2]
    rfl

end GraphStore

/-- C2: for every store state whose batches are aligned (chunk and embedding
lists of each batch have equal length) and whose materialized chunk count
matches the index, `removeChunksBySource s` removes exactly the records with
source `s`, preserves the relative order of the kept records, keeps each
record paired with its embedding at the same ordinal position, and decreases
`chunkCount` by exactly the number of matching records. -/
theorem C2_remove_partition (s : String) (st : StoreState)
    (hal : ∀ b, b < ceilDiv st.index.chunkCount BATCH_SIZE →
      (loadEmbeddingBatch st b).length = (loadChunkBatch st b).length)
    (hcnt : (getChunks st).length = st.index.chunkCount) :
    getChunks (removeChunksBySource s st) =
      (getChunks st).filter (fun c => !(c.source == s)) ∧
    (getChunks (removeChunksBySource s st)).zip (getEmbeddings (removeChunksBySource s st)) =
      ((getChunks st).zip (getEmbeddings st)).filter (fun p => !(p.1.source == s)) ∧
    (removeChunksBySource s st).index.chunkCount =
      st.index.chunkCount - ((getChunks st).filter (fun c => c.source == s)).length := by
  have hlen : (getChunks st).length = (getEmbeddings st).length :=
    flatLoad_length st (ceilDiv st.index.chunkCount BATCH_SIZE) hal
  have hsum : (getChunks st).length =
      ((getChunks st).filter (fun c => c.source == s)).length +
      ((getChunks st).filter (fun c => !(c.source == s))).length :=
    List.length_eq_length_filter_add _
  by_cases h0 : ((getChunks st).filter (fun c => c.source == s)).length = 0
  · have hnm : ∀ c ∈ getChunks st, ¬ c.source = s := by
      intro c hc hcs
      have hmem : c ∈ (getChunks st).filter (fun c => c.source == s) :=
        List.mem_filter.mpr ⟨hc, by simp [hcs]⟩
      rw [List.length_eq_zero] at h0
      rw [h0] at hmem
      simp at hmem
    rw [remove_noop_of_no_match s st hnm]
    refine ⟨?_, ?_, ?_⟩
    · symm
      apply List.filter_eq_self.mpr
      intro c hc
      simp [hnm c hc]
    · symm
      apply List.filter_eq_self.mpr
      intro p hp
      obtain ⟨a, b⟩ := p
      have hm := List.mem_zip hp
      simp [hnm a hm.1]
    · omega
  · have h0' : ¬ (((List.range (ceilDiv st.index.chunkCount BATCH_SIZE)).flatMap
        (fun b => loadChunkBatch st b)).filter (fun c => c.source == s)).length = 0 := h0
    obtain ⟨r1, r2, r3, r4⟩ := remove_rewrite_spec s st hal h0'
    have hloadC : ∀ b,
        b < ceilDiv ((getChunks st).filter (fun c => !(c.source == s))).length BATCH_SIZE →
        loadChunkBatch (removeChunksBySource s st) b =
          sliceAt ((getChunks st).filter (fun c => !(c.source == s))) b := by
      intro b hb
      unfold loadChunkBatch
      rw [r3, JMap.get_keyed_map]
      simp [List.mem_range, hb]
    have hloadE : ∀ b,
        b < ceilDiv ((getChunks st).filter (fun c => !(c.source == s))).length BATCH_SIZE →
        loadEmbeddingBatch (removeChunksBySource s st) b =
          sliceAt ((((getChunks st).zip (getEmbeddings st)).filter
            (fun p => !(p.1.source == s))).map Prod.snd) b := by
      intro b hb
      unfold loadEmbeddingBatch
      rw [r4, JMap.get_keyed_map]
      simp [List.mem_range, hb]
    have hchunks : getChunks (removeChunksBySource s st) =
        (getChunks st).filter (fun c => !(c.source == s)) := by
      unfold getChunks
      rw [r2]
      rw [flatMap_congr_mem _ _ _ (fun b hb => hloadC b (List.mem_range.mp hb))]
      exact flatMap_sliceAt _
    have hkeptlen : ((((getChunks st).zip (getEmbeddings st)).filter
        (fun p => !(p.1.source == s))).map Prod.snd).length =
        ((getChunks st).filter (fun c => !(c.source == s))).length := by
      rw [List.length_map]
      have hfst := filter_zip_fst (fun c => !(c.source == s)) (getChunks st)
        (getEmbeddings st) hlen
      have : ((((getChunks st).zip (getEmbeddings st)).filter
          (fun p => !(p.1.source == s))).map Prod.fst).length =
          ((getChunks st).filter (fun c => !(c.source == s))).length := by rw [hfst]
      rw [List.length_map] at this
      exact this
    have hembs : getEmbeddings (removeChunksBySource s st) =
        (((getChunks st).zip (getEmbeddings st)).filter
          (fun p => !(p.1.source == s))).map Prod.snd := by
      unfold getEmbeddings
      rw [r2]
      rw [flatMap_congr_mem _ _ _ (fun b hb => hloadE b (List.mem_range.mp hb))]
      rw [← hkeptlen]
      exact flatMap_sliceAt _
    refine ⟨hchunks, ?_, ?_⟩
    · rw [hchunks, hembs,
        ← filter_zip_fst (fun c => !(c.source == s)) (getChunks st) (getEmbeddings st) hlen]
      exact (List.zip_of_prod rfl rfl).symm
    · rw [r2]
      omega

/-- C2 witness: a store holding records from sources "a" and "b"; removing
"a" keeps exactly the "b" record with its embedding and drops the count by
one. -/
theorem C2_remove_partition_witness :
    (∀ b, b < ceilDiv (StoreState.mk (GraphConfig.mk "1.0" 0 (7 / 10)) (GraphIndex.mk 2 1000)
        [(0, [GraphChunkData.mk "x" "y" "a" 0, GraphChunkData.mk "z" "w" "b" 0])]
        [(0, [[], []])] (Disk.mk [] [] none none)).index.chunkCount BATCH_SIZE →
      (loadEmbeddingBatch (StoreState.mk (GraphConfig.mk "1.0" 0 (7 / 10)) (GraphIndex.mk 2 1000)
        [(0, [GraphChunkData.mk "x" "y" "a" 0, GraphChunkData.mk "z" "w" "b" 0])]
        [(0, [[], []])] (Disk.mk [] [] none none)) b).length =
      (loadChunkBatch (StoreState.mk (GraphConfig.mk "1.0" 0 (7 / 10)) (GraphIndex.mk 2 1000)
        [(0, [GraphChunkData.mk "x" "y" "a" 0, GraphChunkData.mk "z" "w" "b" 0])]
        [(0, [[], []])] (Disk.mk [] [] none none)) b).length) ∧
    ((getChunks (StoreState.mk (GraphConfig.mk "1.0" 0 (7 / 10)) (GraphIndex.mk 2 1000)
        [(0, [GraphChunkData.mk "x" "y" "a" 0, GraphChunkData.mk "z" "w" "b" 0])]
        [(0, [[], []])] (Disk.mk [] [] none none))).length =
      (StoreState.mk (GraphConfig.mk "1.0" 0 (7 / 10)) (GraphIndex.mk 2 1000)
        [(0, [GraphChunkData.mk "x" "y" "a" 0, GraphChunkData.mk "z" "w" "b" 0])]
        [(0, [[], []])] (Disk.mk [] [] none none)).index.chunkCount) ∧
    ((removeChunksBySource "a" (StoreState.mk (GraphConfig.mk "1.0" 0 (7 / 10))
        (GraphIndex.mk 2 1000)
        [(0, [GraphChunkData.mk "x" "y" "a" 0, GraphChunkData.mk "z" "w" "b" 0])]
        [(0, [[], []])] (Disk.mk [] [] none none))).index.chunkCount =
      (StoreState.mk (GraphConfig.mk "1.0" 0 (7 / 10)) (GraphIndex.mk 2 1000)
        [(0, [GraphChunkData.mk "x" "y" "a" 0, GraphChunkData.mk "z" "w" "b" 0])]
        [(0, [[], []])] (Disk.mk [] [] none none)).index.chunkCount -
      ((getChunks (StoreState.mk (GraphConfig.mk "1.0" 0 (7 / 10)) (GraphIndex.mk 2 1000)
        [(0, [GraphChunkData.mk "x" "y" "a" 0, GraphChunkData.mk "z" "w" "b" 0])]
        [(0, [[], []])] (Disk.mk [] [] none none))).filter
          (fun c => c.source == "a")).length) :=
  ⟨by decide, by decide,
    (C2_remove_partition "a" (StoreState.mk (GraphConfig.mk "1.0" 0 (7 / 10))
      (GraphIndex.mk 2 1000)
      [(0, [GraphChunkData.mk "x" "y" "a" 0, GraphChunkData.mk "z" "w" "b" 0])]
      [(0, [[], []])] (Disk.mk [] [] none none)) (by decide) (by decide)).2.2⟩

namespace GraphStore

/-- When batch `b` is cached (both halves), `evictOne` writes both halves to
disk and erases the batch from both caches. -/
theorem evictOne_spec (st : StoreState) (b : Nat) (cs : List GraphChunkData) (es : List Embedding)
    (hcb : JMap.get st.chunksCache b = some cs) (hce : JMap.get st.embeddingsCache b = some es) :
    evictOne b st = { st with
      chunksCache := JMap.erase st.chunksCache b,
      embeddingsCache := JMap.erase st.embeddingsCache b,
      disk := { st.disk with
        chunkFiles := JMap.set st.disk.chunkFiles b (ChunkFile.parseable cs),
        embFiles := JMap.set st.disk.embFiles b (encodeEmbeddings st.config.dimension es) } } := by
  obtain ⟨e1, e2, e3, e4, e5, e6, e7, e8⟩ := flushOne_spec st b
  simp only [hcb] at e7
  simp only [hce] at e8
  have h1 : flushOne b st = { st with disk := { st.disk with
      chunkFiles := JMap.set st.disk.chunkFiles b (ChunkFile.parseable cs),
      embFiles := JMap.set st.disk.embFiles b (encodeEmbeddings st.config.dimension es) } } := by
    calc flushOne b st = ⟨(flushOne b st).config, (flushOne b st).index,
        (flushOne b st).chunksCache, (flushOne b st).embeddingsCache,
        ⟨(flushOne b st).disk.chunkFiles, (flushOne b st).disk.embFiles,
         (flushOne b st).disk.configFile, (flushOne b st).disk.indexFile⟩⟩ := rfl
      _ = _ := by rw [e1, e2, e3, e4, e5, e6, e7, e8]
  unfold evictOne
  rw [h1]

/-- Complete description of an eviction run over a duplicate-free list of
cached batch numbers. -/
theorem evictRun_spec (L : List Nat) : ∀ st : StoreState,
    (∀ b ∈ L, b ∈ JMap.keys st.chunksCache) → L.Nodup →
    JMap.keys st.chunksCache = JMap.keys st.embeddingsCache →
    (JMap.keys st.chunksCache).Nodup →
    ((L.foldl (fun s b => evictOne b s) st).config = st.config ∧
     (L.foldl (fun s b => evictOne b s) st).index = st.index ∧
     (L.foldl (fun s b => evictOne b s) st).chunksCache.length + L.length =
       st.chunksCache.length ∧
     (∀ b, b ∉ L →
        JMap.get (L.foldl (fun s b => evictOne b s) st).chunksCache b =
          JMap.get st.chunksCache b ∧
        JMap.get (L.foldl (fun s b => evictOne b s) st).embeddingsCache b =
          JMap.get st.embeddingsCache b ∧
        JMap.get (L.foldl (fun s b => evictOne b s) st).disk.chunkFiles b =
          JMap.get st.disk.chunkFiles b ∧
        JMap.get (L.foldl (fun s b => evictOne b s) st).disk.embFiles b =
          JMap.get st.disk.embFiles b) ∧
     (∀ b ∈ L,
        JMap.get (L.foldl (fun s b => evictOne b s) st).chunksCache b = none ∧
        JMap.get (L.foldl (fun s b => evictOne b s) st).embeddingsCache b = none ∧
        (∃ cs, JMap.get st.chunksCache b = some cs ∧
          JMap.get (L.foldl (fun s b => evictOne b s) st).disk.chunkFiles b =
            some (ChunkFile.parseable cs)) ∧
        (∃ es, JMap.get st.embeddingsCache b = some es ∧
          JMap.get (L.foldl (fun s b => evictOne b s) st).disk.embFiles b =
            some (encodeEmbeddings st.config.dimension es))) ∧
     JMap.keys (L.foldl (fun s b => evictOne b s) st).chunksCache =
       JMap.keys (L.foldl (fun s b => evictOne b s) st).embeddingsCache) := by
  induction L with
  | nil =>
      intro st _ _ hkeys _
      refine ⟨rfl, rfl, by simp, fun b _ => ⟨rfl, rfl, rfl, rfl⟩, by simp, hkeys⟩
  | cons a L ih =>
      intro st hsub hnodupL hkeys hnodup
      have haK : a ∈ JMap.keys st.chunksCache := hsub a (by simp)
      obtain ⟨cs, hcb⟩ : ∃ cs, JMap.get st.chunksCache a = some cs := by
        have := (JMap.mem_keys_iff_get _ _).mp haK
        cases hg : JMap.get st.chunksCache a with
        | none => rw [hg] at this; simp at this
        | some v => exact ⟨v, rfl⟩
      obtain ⟨es, hce⟩ : ∃ es, JMap.get st.embeddingsCache a = some es := by
        have h1 : a ∈ JMap.keys st.embeddingsCache := hkeys ▸ haK
        have := (JMap.mem_keys_iff_get _ _).mp h1
        cases hg : JMap.get st.embeddingsCache a with
        | none => rw [hg] at this; simp at this
        | some v => exact ⟨v, rfl⟩
      have haL : a ∉ L := (List.nodup_cons.mp hnodupL).1
      rw [List.foldl_cons, evictOne_spec st a cs es hcb hce]
      have hsubR : ∀ b ∈ L, b ∈ JMap.keys (JMap.erase st.chunksCache a) := by
        intro b hb
        have hba : a ≠ b := fun hc => haL (hc ▸ hb)
        exact JMap.mem_keys_erase_of_ne _ _ _ hba (hsub b (by simp [hb]))
      obtain ⟨i1, i2, i3, i4, i5, i6⟩ := ih
        { st with
          chunksCache := JMap.erase st.chunksCache a,
          embeddingsCache := JMap.erase st.embeddingsCache a,
          disk := { st.disk with
            chunkFiles := JMap.set st.disk.chunkFiles a (ChunkFile.parseable cs),
            embFiles := JMap.set st.disk.embFiles a
              (encodeEmbeddings st.config.dimension es) } }
        hsubR (List.nodup_cons.mp hnodupL).2
        (show JMap.keys (JMap.erase st.chunksCache a) =
            JMap.keys (JMap.erase st.embeddingsCache a) by
          rw [JMap.keys_erase, JMap.keys_erase, hkeys])
        (show (JMap.keys (JMap.erase st.chunksCache a)).Nodup from
          JMap.nodup_keys_erase _ _ hnodup)
      refine ⟨i1.trans rfl, i2.trans rfl, ?_, ?_, ?_, i6⟩
      · have h2 : (JMap.erase st.chunksCache a).length + 1 = st.chunksCache.length :=
          JMap.length_erase_of_mem _ _ haK
        simp only [] at i3
        simp only [List.length_cons]
        omega
      · intro b hb
        have hba : b ≠ a := fun hc => hb (by simp [hc])
        have hbL : b ∉ L := fun hc => hb (by simp [hc])
        obtain ⟨j1, j2, j3, j4⟩ := i4 b hbL
        refine ⟨?_, ?_, ?_, ?_⟩
        · rw [j1]
          exact JMap.get_erase_ne _ _ _ (Ne.symm hba)
        · rw [j2]
          exact JMap.get_erase_ne _ _ _ (Ne.symm hba)
        · rw [j3]
          exact JMap.get_set_ne _ _ _ _ (Ne.symm hba)
        · rw [j4]
          exact JMap.get_set_ne _ _ _ _ (Ne.symm hba)
      · intro b hb
        by_cases hba : b = a
        · subst hba
          obtain ⟨j1, j2, j3, j4⟩ := i4 b haL
          refine ⟨?_, ?_, ⟨cs, hcb, ?_⟩, ⟨es, hce, ?_⟩⟩
          · rw [j1]
            exact JMap.get_erase_self _ _ hnodup
          · rw [j2]
            exact JMap.get_erase_self _ _ (hkeys ▸ hnodup)
          · rw [j3]
            exact JMap.get_set_self _ _ _
          · rw [j4]
            exact JMap.get_set_self _ _ _
        · have hbL : b ∈ L := by
            rcases List.mem_cons.mp hb with h' | h'
            · exact absurd h' hba
            · exact h'
          obtain ⟨j1, j2, j3, j4⟩ := i5 b hbL
          obtain ⟨cs', hcs', hdisk'⟩ := j3
          obtain ⟨es', hes', hdiske'⟩ := j4
          refine ⟨j1, j2, ⟨cs', ?_, hdisk'⟩, ⟨es', ?_, ?_⟩⟩
          · rw [← hcs']
            exact (JMap.get_erase_ne st.chunksCache a b (fun hc => hba hc.symm)).symm
          · rw [← hes']
            exact (JMap.get_erase_ne st.embeddingsCache a b (fun hc => hba hc.symm)).symm
          · exact hdiske'

end GraphStore

namespace GraphStore

/-- Filtering out one key from a duplicate-free list drops its length by one
exactly when the key is present. -/
theorem length_filter_ne_of_nodup (l : List Nat) (a : Nat) (h : l.Nodup) :
    (l.filter (fun n => !(n == a))).length = l.length - (if a ∈ l then 1 else 0) := by
  induction l with
  | nil => simp
  | cons x l ih =>
      rw [List.nodup_cons] at h
      by_cases hxa : x = a
      · subst hxa
        have hnx : x ∉ l := h.1
        simp [List.filter_cons, ih h.2, hnx]
      · by_cases hal : a ∈ l
        · simp [List.filter_cons, hxa, ih h.2, hal, Ne.symm hxa]
          have : 1 ≤ l.length := List.length_pos.mpr (List.ne_nil_of_mem hal)
          omega
        · have : a ∉ x :: l := by simp [Ne.symm hxa, hal]
          simp [List.filter_cons, hxa, ih h.2, hal, this]

theorem evictTargets_sub (st : StoreState) (keep : Nat) :
    ∀ b ∈ evictTargets st keep, b ∈ JMap.keys st.chunksCache := by
  intro b hb
  unfold evictTargets at hb
  exact List.mem_of_mem_filter (List.mem_of_mem_take hb)

theorem evictTargets_nodup (st : StoreState) (keep : Nat)
    (h : (JMap.keys st.chunksCache).Nodup) : (evictTargets st keep).Nodup :=
  ((List.take_sublist _ _).trans (List.filter_sublist _)).nodup h

theorem keep_not_mem_evictTargets (st : StoreState) (keep : Nat) :
    keep ∉ evictTargets st keep := by
  intro hmem
  unfold evictTargets at hmem
  have := List.of_mem_filter (List.mem_of_mem_take hmem)
  simp at this

theorem evictTargets_length (st : StoreState) (keep : Nat)
    (h5 : MAX_CACHED_BATCHES ≤ st.chunksCache.length)
    (hnodup : (JMap.keys st.chunksCache).Nodup) :
    (evictTargets st keep).length = st.chunksCache.length - (MAX_CACHED_BATCHES - 1) := by
  unfold evictTargets
  rw [List.length_take, length_filter_ne_of_nodup _ _ hnodup]
  have hkl : (JMap.keys st.chunksCache).length = st.chunksCache.length := by
    simp [JMap.keys]
  simp only [MAX_CACHED_BATCHES] at h5 ⊢
  by_cases hmem : keep ∈ JMap.keys st.chunksCache
  · simp only [hmem, if_pos]
    omega
  · simp only [hmem, if_neg, ite_false]
    omega

/-- Full description of `evictOldCaches` under eviction pressure. -/
theorem evictOldCaches_spec (st : StoreState) (keep : Nat)
    (htc : MAX_CACHED_BATCHES ≤ st.chunksCache.length)
    (hkeys : JMap.keys st.chunksCache = JMap.keys st.embeddingsCache)
    (hnodup : (JMap.keys st.chunksCache).Nodup) :
    (evictOldCaches keep st).chunksCache.length = MAX_CACHED_BATCHES - 1 ∧
    (evictOldCaches keep st).embeddingsCache.length = MAX_CACHED_BATCHES - 1 ∧
    (∀ b, b ∉ evictTargets st keep →
      JMap.get (evictOldCaches keep st).chunksCache b = JMap.get st.chunksCache b ∧
      JMap.get (evictOldCaches keep st).embeddingsCache b = JMap.get st.embeddingsCache b) ∧
    (∀ b ∈ evictTargets st keep,
      JMap.get (evictOldCaches keep st).chunksCache b = none ∧
      JMap.get (evictOldCaches keep st).embeddingsCache b = none ∧
      (∃ cs, JMap.get st.chunksCache b = some cs ∧
        JMap.get (evictOldCaches keep st).disk.chunkFiles b = some (ChunkFile.parseable cs)) ∧
      (∃ es, JMap.get st.embeddingsCache b = some es ∧
        JMap.get (evictOldCaches keep st).disk.embFiles b =
          some (encodeEmbeddings st.config.dimension es))) ∧
    (evictOldCaches keep st).config = st.config := by
  have hrun := evictRun_spec (evictTargets st keep) st (evictTargets_sub st keep)
    (evictTargets_nodup st keep hnodup) hkeys hnodup
  obtain ⟨r1, r2, r3, r4, r5, r6⟩ := hrun
  have hev : evictOldCaches keep st =
      (evictTargets st keep).foldl (fun s b => evictOne b s) st := by
    unfold evictOldCaches
    rw [if_pos htc]
  have hlenT := evictTargets_length st keep htc hnodup
  rw [hev]
  have hcclen : ((evictTargets st keep).foldl (fun s b => evictOne b s) st).chunksCache.length =
      MAX_CACHED_BATCHES - 1 := by
    simp only [MAX_CACHED_BATCHES] at htc hlenT ⊢
    omega
  refine ⟨hcclen, ?_, fun b hb => ⟨(r4 b hb).1, (r4 b hb).2.1⟩, r5, r1⟩
  · have h1 : (JMap.keys ((evictTargets st keep).foldl
        (fun s b => evictOne b s) st).embeddingsCache).length =
        (JMap.keys ((evictTargets st keep).foldl
          (fun s b => evictOne b s) st).chunksCache).length := by
      rw [r6]
    simp only [JMap.keys, List.length_map] at h1
    rw [h1, hcclen]

end GraphStore

namespace JMap

theorem get_mem {α : Type} (m : List (Nat × α)) (k : Nat) (v : α) (h : get m k = some v) :
    (k, v) ∈ m := by
  induction m with
  | nil => simp [get] at h
  | cons kv m ih =>
      by_cases hk : kv.1 = k
      · simp only [get, if_pos hk, Option.some.injEq] at h
        obtain ⟨k1, v1⟩ := kv
        cases hk
        cases h
        exact List.mem_cons_self _ _
      · simp only [get, if_neg hk] at h
        exact List.mem_cons_of_mem _ (ih h)

end JMap

/-- C6: when at least `MAX_CACHED_BATCHES` batches are cached (with the two
caches keyed alike and without duplicate keys, as in every reachable state),
`evictOldCaches keep` removes exactly the oldest non-kept entries — the
`evictTargets`, a prefix of the insertion-ordered key list with `keep`
filtered out — until exactly `MAX_CACHED_BATCHES - 1` remain, never removes
`keep`, and writes every evicted batch to disk first, so each evicted batch
is still readable (both halves) immediately after eviction. -/
theorem C6_eviction (st : StoreState) (keep : Nat)
    (htc : MAX_CACHED_BATCHES ≤ st.chunksCache.length)
    (hkeys : JMap.keys st.chunksCache = JMap.keys st.embeddingsCache)
    (hnodup : (JMap.keys st.chunksCache).Nodup)
    (hWFe : ∀ b es, JMap.get st.embeddingsCache b = some es →
      (∀ e ∈ es, e.length = st.config.dimension ∧ ∀ v ∈ e, v < 4294967296) ∧
      es.length < 4294967296) :
    (evictOldCaches keep st).chunksCache.length = MAX_CACHED_BATCHES - 1 ∧
    (keep ∈ JMap.keys st.chunksCache →
      keep ∈ JMap.keys (evictOldCaches keep st).chunksCache) ∧
    (∀ b ∈ evictTargets st keep,
      b ∉ JMap.keys (evictOldCaches keep st).chunksCache ∧
      loadChunkBatch (evictOldCaches keep st) b = loadChunkBatch st b ∧
      loadEmbeddingBatch (evictOldCaches keep st) b = loadEmbeddingBatch st b) := by
  obtain ⟨e1, e2, e3, e4, e5⟩ := evictOldCaches_spec st keep htc hkeys hnodup
  refine ⟨e1, ?_, ?_⟩
  · intro hk
    have hsame := (e3 keep (keep_not_mem_evictTargets st keep)).1
    rw [JMap.mem_keys_iff_get] at hk ⊢
    rw [hsame]
    exact hk
  · intro b hb
    obtain ⟨g1, g2, ⟨cs, hcs, hdc⟩, ⟨es, hes, hde⟩⟩ := e4 b hb
    refine ⟨?_, ?_, ?_⟩
    · rw [JMap.mem_keys_iff_get, g1]
      simp
    · unfold loadChunkBatch
      rw [g1, hdc, hcs]
    · obtain ⟨hWF1, hWF2⟩ := hWFe b es hes
      have hd := decodeEmbeddings_encode st.config.dimension es
        (fun e he => (hWF1 e he).1) (fun e he => (hWF1 e he).2) hWF2
      unfold loadEmbeddingBatch
      rw [g2, hde, hes, e5]
      simp only [hd]

/-- Witness for C6: a concrete store with five cached batches; eviction with
`keep = 0` brings the caches down to four entries. -/
theorem C6_eviction_witness :
    MAX_CACHED_BATCHES ≤ (StoreState.mk (GraphConfig.mk "1.0" 0 (7/10)) (GraphIndex.mk 5000 1000) [(0, ([] : List GraphChunkData)), (1, []), (2, []), (3, []), (4, [])] [(0, [([] : Embedding)]), (1, [[]]), (2, [[]]), (3, [[]]), (4, [[]])] (Disk.mk [] [] none none)).chunksCache.length ∧
    JMap.keys (StoreState.mk (GraphConfig.mk "1.0" 0 (7/10)) (GraphIndex.mk 5000 1000) [(0, ([] : List GraphChunkData)), (1, []), (2, []), (3, []), (4, [])] [(0, [([] : Embedding)]), (1, [[]]), (2, [[]]), (3, [[]]), (4, [[]])] (Disk.mk [] [] none none)).chunksCache = JMap.keys (StoreState.mk (GraphConfig.mk "1.0" 0 (7/10)) (GraphIndex.mk 5000 1000) [(0, ([] : List GraphChunkData)), (1, []), (2, []), (3, []), (4, [])] [(0, [([] : Embedding)]), (1, [[]]), (2, [[]]), (3, [[]]), (4, [[]])] (Disk.mk [] [] none none)).embeddingsCache ∧
    (JMap.keys (StoreState.mk (GraphConfig.mk "1.0" 0 (7/10)) (GraphIndex.mk 5000 1000) [(0, ([] : List GraphChunkData)), (1, []), (2, []), (3, []), (4, [])] [(0, [([] : Embedding)]), (1, [[]]), (2, [[]]), (3, [[]]), (4, [[]])] (Disk.mk [] [] none none)).chunksCache).Nodup ∧
    (evictOldCaches 0 (StoreState.mk (GraphConfig.mk "1.0" 0 (7/10)) (GraphIndex.mk 5000 1000) [(0, ([] : List GraphChunkData)), (1, []), (2, []), (3, []), (4, [])] [(0, [([] : Embedding)]), (1, [[]]), (2, [[]]), (3, [[]]), (4, [[]])] (Disk.mk [] [] none none))).chunksCache.length = MAX_CACHED_BATCHES - 1 := by
  refine ⟨by decide, by decide, by decide, ?_⟩
  exact (C6_eviction (StoreState.mk (GraphConfig.mk "1.0" 0 (7/10)) (GraphIndex.mk 5000 1000) [(0, ([] : List GraphChunkData)), (1, []), (2, []), (3, []), (4, [])] [(0, [([] : Embedding)]), (1, [[]]), (2, [[]]), (3, [[]]), (4, [[]])] (Disk.mk [] [] none none)) 0 (by decide) (by decide) (by decide)
    (by
      intro b es h
      have hm := JMap.get_mem _ _ _ h
      simp only [List.mem_cons, List.not_mem_nil, or_false, Prod.mk.injEq] at hm
      rcases hm with ⟨h1, rfl⟩ | ⟨h1, rfl⟩ | ⟨h1, rfl⟩ | ⟨h1, rfl⟩ | ⟨h1, rfl⟩ <;> exact (by decide))).1

theorem filter_replicate_cases {α : Type} (n : Nat) (x : α) (p : α → Bool) :
    (List.replicate n x).filter p = if p x then List.replicate n x else [] := by
  induction n with
  | zero => simp
  | succ n ih =>
      cases hp : p x
      · simp [List.replicate_succ, hp, ih]
      · simp [List.replicate_succ, hp, ih]

theorem exRemove_loadChunk (b : Nat) (hb : b < 7) :
    loadChunkBatch exRemoveState b =
      List.replicate 1000 (mkRec (if b == 6 then "a" else "b")) := by
  have hgc : JMap.get exRemoveState.disk.chunkFiles b =
      some (ChunkFile.parseable (List.replicate 1000 (mkRec (if b == 6 then "a" else "b")))) := by
    show JMap.get ((List.range 7).map (fun b =>
      (b, ChunkFile.parseable (List.replicate 1000 (mkRec (if b == 6 then "a" else "b")))))) b = _
    rw [JMap.get_keyed_map, if_pos (List.mem_range.mpr hb)]
  unfold loadChunkBatch
  rw [show JMap.get exRemoveState.chunksCache b = (none : Option (List GraphChunkData)) from rfl]
  rw [hgc]

theorem exRemove_loadEmb (b : Nat) (hb : b < 7) :
    loadEmbeddingBatch exRemoveState b = List.replicate 1000 ([] : Embedding) := by
  have hge : JMap.get exRemoveState.disk.embFiles b =
      some (encodeEmbeddings 0 (List.replicate 1000 [])) := by
    show JMap.get ((List.range 7).map (fun b =>
      (b, encodeEmbeddings 0 (List.replicate 1000 [])))) b = _
    rw [JMap.get_keyed_map, if_pos (List.mem_range.mpr hb)]
  have hdec : decodeEmbeddings (encodeEmbeddings 0 (List.replicate 1000 ([] : Embedding)))
      exRemoveState.config.dimension = some (List.replicate 1000 []) :=
    decodeEmbeddings_encode 0 _
      (by intro e he; rw [List.eq_of_mem_replicate he]; rfl)
      (by intro e he v hv; rw [List.eq_of_mem_replicate he] at hv; cases hv)
      (by rw [List.length_replicate]; decide)
  unfold loadEmbeddingBatch
  rw [show JMap.get exRemoveState.embeddingsCache b = (none : Option (List Embedding)) from rfl]
  rw [hge]
  simp only [hdec]

theorem exRemove_getChunks : getChunks exRemoveState =
    (List.range 7).flatMap (fun b => List.replicate 1000 (mkRec (if b == 6 then "a" else "b"))) := by
  unfold getChunks
  rw [show ceilDiv exRemoveState.index.chunkCount BATCH_SIZE = 7 from by decide]
  rw [show List.range 7 = [0, 1, 2, 3, 4, 5, 6] from rfl]
  simp only [List.flatMap_cons, List.flatMap_nil, List.append_nil]
  rw [exRemove_loadChunk 0 (by decide), exRemove_loadChunk 1 (by decide),
    exRemove_loadChunk 2 (by decide), exRemove_loadChunk 3 (by decide),
    exRemove_loadChunk 4 (by decide), exRemove_loadChunk 5 (by decide),
    exRemove_loadChunk 6 (by decide)]

theorem exRemove_keptLength :
    (((getChunks exRemoveState).filter (fun c => !(c.source == "a")))).length = 6000 := by
  rw [exRemove_getChunks]
  have h7 : (List.range 7).flatMap
      (fun b => List.replicate 1000 (mkRec (if b == 6 then "a" else "b"))) =
      List.replicate 1000 (mkRec "b") ++ (List.replicate 1000 (mkRec "b") ++
      (List.replicate 1000 (mkRec "b") ++ (List.replicate 1000 (mkRec "b") ++
      (List.replicate 1000 (mkRec "b") ++ (List.replicate 1000 (mkRec "b") ++
      List.replicate 1000 (mkRec "a")))))) := by
    rw [show List.range 7 = [0, 1, 2, 3, 4, 5, 6] from rfl]
    simp only [List.flatMap_cons, List.flatMap_nil, List.append_nil]
    rfl
  have hb : (List.replicate 1000 (mkRec "b")).filter (fun c => !(c.source == "a")) =
      List.replicate 1000 (mkRec "b") := by
    rw [filter_replicate_cases]; rfl
  have ha : (List.replicate 1000 (mkRec "a")).filter (fun c => !(c.source == "a")) =
      ([] : List GraphChunkData) := by
    rw [filter_replicate_cases]; rfl
  rw [h7]
  simp only [List.filter_append, hb, ha, List.length_append, List.length_replicate,
    List.length_nil]

/-- C5, counterexample: a store whose cache is within the bound (empty) and
whose disk holds 7000 records in seven full batches, six from source "b" and
one from source "a".  `removeChunksBySource "a"` keeps 6000 records,
re-partitions them into six fresh batches, and caches every one of them while
rewriting — so the end state holds 6 cached batches, exceeding
`MAX_CACHED_BATCHES = 5`: the rewrite loop never evicts. -/
theorem C5_cache_bound_counterexample :
    exRemoveState.chunksCache.length ≤ MAX_CACHED_BATCHES ∧
    ¬ ((removeChunksBySource "a" exRemoveState).chunksCache.length ≤ MAX_CACHED_BATCHES) := by
  have hal : ∀ b, b < ceilDiv exRemoveState.index.chunkCount BATCH_SIZE →
      (loadEmbeddingBatch exRemoveState b).length = (loadChunkBatch exRemoveState b).length := by
    simp only [show ceilDiv exRemoveState.index.chunkCount BATCH_SIZE = 7 from by decide]
    intro b hb
    rw [exRemove_loadEmb b hb, exRemove_loadChunk b hb, List.length_replicate,
      List.length_replicate]
  have h0 : ¬ (((List.range (ceilDiv exRemoveState.index.chunkCount BATCH_SIZE)).flatMap
      (fun b => loadChunkBatch exRemoveState b)).filter
      (fun c => c.source == "a")).length = 0 := by
    show ¬ ((getChunks exRemoveState).filter (fun c => c.source == "a")).length = 0
    intro hcontra
    have hmem : mkRec "a" ∈ (getChunks exRemoveState).filter (fun c => c.source == "a") := by
      apply List.mem_filter.mpr
      refine ⟨?_, by rfl⟩
      rw [exRemove_getChunks]
      apply List.mem_flatMap.mpr
      refine ⟨6, by decide, ?_⟩
      exact List.mem_replicate.mpr ⟨by decide, rfl⟩
    rw [List.length_eq_zero] at hcontra
    rw [hcontra] at hmem
    exact List.not_mem_nil _ hmem
  obtain ⟨r1, r2, r3, r4⟩ := remove_rewrite_spec "a" exRemoveState hal h0
  refine ⟨by decide, ?_⟩
  intro hle
  rw [r3, List.length_map, List.length_range, exRemove_keptLength] at hle
  exact absurd hle (by decide)

theorem JMap.length_set_le {α : Type} (m : List (Nat × α)) (k : Nat) (v : α) :
    (JMap.set m k v).length ≤ m.length + 1 := by
  by_cases h : k ∈ JMap.keys m
  · rw [JMap.length_set_of_mem m k v h]
    exact Nat.le_succ _
  · rw [JMap.length_set_of_not_mem m k v h]

theorem addChunk_cache_bound (c : GraphChunkData) (e : Embedding) (st : StoreState)
    (hkeys : JMap.keys st.chunksCache = JMap.keys st.embeddingsCache)
    (hnodup : (JMap.keys st.chunksCache).Nodup)
    (h5 : st.chunksCache.length ≤ MAX_CACHED_BATCHES) :
    (addChunk c e st).chunksCache.length ≤ MAX_CACHED_BATCHES ∧
    (addChunk c e st).embeddingsCache.length ≤ MAX_CACHED_BATCHES := by
  have hlenEq : st.embeddingsCache.length = st.chunksCache.length := by
    have h1 := congrArg List.length hkeys
    simpa [JMap.keys] using h1.symm
  have hcc : (addChunk c e st).chunksCache =
      JMap.set (evictOldCaches (getBatchNumber st.index.chunkCount) st).chunksCache
        (getBatchNumber st.index.chunkCount)
        (loadChunkBatch (evictOldCaches (getBatchNumber st.index.chunkCount) st)
          (getBatchNumber st.index.chunkCount) ++ [c]) := rfl
  have hec : (addChunk c e st).embeddingsCache =
      JMap.set (evictOldCaches (getBatchNumber st.index.chunkCount) st).embeddingsCache
        (getBatchNumber st.index.chunkCount)
        (loadEmbeddingBatch (evictOldCaches (getBatchNumber st.index.chunkCount) st)
          (getBatchNumber st.index.chunkCount) ++ [e]) := rfl
  rw [hcc, hec]
  by_cases hp : MAX_CACHED_BATCHES ≤ st.chunksCache.length
  · obtain ⟨e1, e2, -, -, -⟩ :=
      evictOldCaches_spec st (getBatchNumber st.index.chunkCount) hp hkeys hnodup
    constructor
    · have h1 := JMap.length_set_le
        (evictOldCaches (getBatchNumber st.index.chunkCount) st).chunksCache
        (getBatchNumber st.index.chunkCount)
        (loadChunkBatch (evictOldCaches (getBatchNumber st.index.chunkCount) st)
          (getBatchNumber st.index.chunkCount) ++ [c])
      rw [e1] at h1
      exact h1.trans (by decide)
    · have h1 := JMap.length_set_le
        (evictOldCaches (getBatchNumber st.index.chunkCount) st).embeddingsCache
        (getBatchNumber st.index.chunkCount)
        (loadEmbeddingBatch (evictOldCaches (getBatchNumber st.index.chunkCount) st)
          (getBatchNumber st.index.chunkCount) ++ [e])
      rw [e2] at h1
      exact h1.trans (by decide)
  · have hev : evictOldCaches (getBatchNumber st.index.chunkCount) st = st := by
      unfold evictOldCaches
      rw [if_neg hp]
    rw [hev]
    have hle : st.chunksCache.length + 1 ≤ MAX_CACHED_BATCHES := by
      simp only [MAX_CACHED_BATCHES] at hp h5 ⊢
      omega
    constructor
    · exact (JMap.length_set_le _ _ _).trans hle
    · exact (JMap.length_set_le _ _ _).trans (by rw [hlenEq]; exact hle)

theorem exRemove_hal : ∀ b, b < ceilDiv exRemoveState.index.chunkCount BATCH_SIZE →
    (loadEmbeddingBatch exRemoveState b).length = (loadChunkBatch exRemoveState b).length := by
  simp only [show ceilDiv exRemoveState.index.chunkCount BATCH_SIZE = 7 from by decide]
  intro b hb
  rw [exRemove_loadEmb b hb, exRemove_loadChunk b hb, List.length_replicate,
    List.length_replicate]

theorem exRemove_h0 :
    ¬ (((List.range (ceilDiv exRemoveState.index.chunkCount BATCH_SIZE)).flatMap
      (fun b => loadChunkBatch exRemoveState b)).filter
      (fun c => c.source == "a")).length = 0 := by
  show ¬ ((getChunks exRemoveState).filter (fun c => c.source == "a")).length = 0
  intro hcontra
  have hmem : mkRec "a" ∈ (getChunks exRemoveState).filter (fun c => c.source == "a") := by
    apply List.mem_filter.mpr
    refine ⟨?_, by rfl⟩
    rw [exRemove_getChunks]
    apply List.mem_flatMap.mpr
    refine ⟨6, by decide, ?_⟩
    exact List.mem_replicate.mpr ⟨by decide, rfl⟩
  rw [List.length_eq_zero] at hcontra
  rw [hcontra] at hmem
  exact List.not_mem_nil _ hmem

/-- C5 (amended): after `save` and `clear` the caches are empty, and
`addChunk` preserves the bound `MAX_CACHED_BATCHES` on both caches (eviction
runs before the append; the keyed-alike, duplicate-free cache hypotheses hold
in every reachable state).  `removeChunksBySource`, however, does not restore
the bound: when some record matches and batches are aligned, its end state
caches exactly `ceil(keptCount / BATCH_SIZE)` batches — one per rewritten
batch — which exceeds the bound whenever the kept records span more than
`MAX_CACHED_BATCHES` batches. -/
theorem C5_cache_bound_amended :
    (∀ (c : GraphChunkData) (e : Embedding) (st : StoreState),
      JMap.keys st.chunksCache = JMap.keys st.embeddingsCache →
      (JMap.keys st.chunksCache).Nodup →
      st.chunksCache.length ≤ MAX_CACHED_BATCHES →
      (addChunk c e st).chunksCache.length ≤ MAX_CACHED_BATCHES ∧
      (addChunk c e st).embeddingsCache.length ≤ MAX_CACHED_BATCHES) ∧
    (∀ st : StoreState, (save st).chunksCache.length = 0 ∧
      (save st).embeddingsCache.length = 0) ∧
    (∀ st : StoreState, (clear st).chunksCache.length = 0 ∧
      (clear st).embeddingsCache.length = 0) ∧
    (∀ (s : String) (st : StoreState),
      (∀ b, b < ceilDiv st.index.chunkCount BATCH_SIZE →
        (loadEmbeddingBatch st b).length = (loadChunkBatch st b).length) →
      ¬ (((List.range (ceilDiv st.index.chunkCount BATCH_SIZE)).flatMap
          (fun b => loadChunkBatch st b)).filter (fun c => c.source == s)).length = 0 →
      (removeChunksBySource s st).chunksCache.length =
        ceilDiv ((getChunks st).filter (fun c => !(c.source == s))).length BATCH_SIZE) := by
  refine ⟨fun c e st h1 h2 h3 => addChunk_cache_bound c e st h1 h2 h3,
    fun st => ⟨rfl, rfl⟩, fun st => ⟨rfl, rfl⟩, ?_⟩
  intro s st hal h0
  obtain ⟨-, -, r3, -⟩ := remove_rewrite_spec s st hal h0
  rw [r3, List.length_map, List.length_range]

/-- Witness for the amended C5: on the concrete seven-batch store, removing
source "a" leaves exactly `ceil(6000/1000) = 6` cached batches. -/
theorem C5_cache_bound_amended_witness :
    (∀ b, b < ceilDiv exRemoveState.index.chunkCount BATCH_SIZE →
      (loadEmbeddingBatch exRemoveState b).length = (loadChunkBatch exRemoveState b).length) ∧
    ¬ (((List.range (ceilDiv exRemoveState.index.chunkCount BATCH_SIZE)).flatMap
        (fun b => loadChunkBatch exRemoveState b)).filter
        (fun c => c.source == "a")).length = 0 ∧
    (removeChunksBySource "a" exRemoveState).chunksCache.length =
      ceilDiv ((getChunks exRemoveState).filter (fun c => !(c.source == "a"))).length
        BATCH_SIZE := by
  refine ⟨exRemove_hal, exRemove_h0, ?_⟩
  exact C5_cache_bound_amended.2.2.2 "a" exRemoveState exRemove_hal exRemove_h0

/-- C8: a batch whose metadata (chunk) file is absent or unparseable loads as
the empty list, and a batch whose vector file is absent or fails to decode —
in particular any buffer shorter than its declared count implies — loads as
the empty list; neither load consults the other half of the batch pair:
`loadChunkBatch` depends only on the chunk cache and chunk files, and
`loadEmbeddingBatch` only on the embedding cache, embedding files and the
configured dimension. -/
theorem C8_corrupt_batch_empty :
    (∀ (st : StoreState) (b : Nat),
      JMap.get st.chunksCache b = none →
      (JMap.get st.disk.chunkFiles b = none ∨
       JMap.get st.disk.chunkFiles b = some ChunkFile.malformed) →
      loadChunkBatch st b = []) ∧
    (∀ (st : StoreState) (b : Nat),
      JMap.get st.embeddingsCache b = none →
      (JMap.get st.disk.embFiles b = none ∨
       ∃ buf, JMap.get st.disk.embFiles b = some buf ∧
         decodeEmbeddings buf st.config.dimension = none) →
      loadEmbeddingBatch st b = []) ∧
    (∀ (bs : List Nat) (d c : Nat), readU32LE bs = some c →
      bs.length < 4 + c * d * 4 → decodeEmbeddings bs d = none) ∧
    (∀ (st st' : StoreState) (b : Nat),
      st'.chunksCache = st.chunksCache → st'.disk.chunkFiles = st.disk.chunkFiles →
      loadChunkBatch st' b = loadChunkBatch st b) ∧
    (∀ (st st' : StoreState) (b : Nat),
      st'.embeddingsCache = st.embeddingsCache → st'.disk.embFiles = st.disk.embFiles →
      st'.config = st.config →
      loadEmbeddingBatch st' b = loadEmbeddingBatch st b) := by
  refine ⟨?_, ?_, ?_, ?_, ?_⟩
  · intro st b hc hd
    unfold loadChunkBatch
    rw [hc]
    rcases hd with h | h
    · rw [h]
    · rw [h]
  · intro st b hc hd
    unfold loadEmbeddingBatch
    rw [hc]
    rcases hd with h | ⟨buf, hbuf, hdec⟩
    · rw [h]
    · rw [hbuf]
      simp only [hdec]
  · intro bs d c hread hshort
    exact decodeEmbeddings_short bs d c hread hshort
  · intro st st' b h1 h2
    unfold loadChunkBatch
    rw [h1, h2]
  · intro st st' b h1 h2 h3
    unfold loadEmbeddingBatch
    simp only [h1, h2, h3]

/-- Witness for C8: a store whose batch 0 has a malformed chunk file and an
embedding file of 4 bytes declaring one vector of dimension 2 (too short);
both loads return the empty list. -/
theorem C8_corrupt_batch_empty_witness :
    loadChunkBatch (StoreState.mk (GraphConfig.mk "1.0" 2 (7/10)) (GraphIndex.mk 0 1000) [] []
      (Disk.mk [(0, ChunkFile.malformed)] [(0, [1, 0, 0, 0])] none none)) 0 = [] ∧
    loadEmbeddingBatch (StoreState.mk (GraphConfig.mk "1.0" 2 (7/10)) (GraphIndex.mk 0 1000) [] []
      (Disk.mk [(0, ChunkFile.malformed)] [(0, [1, 0, 0, 0])] none none)) 0 = [] := by
  constructor
  · exact C8_corrupt_batch_empty.1
      (StoreState.mk (GraphConfig.mk "1.0" 2 (7/10)) (GraphIndex.mk 0 1000) [] []
        (Disk.mk [(0, ChunkFile.malformed)] [(0, [1, 0, 0, 0])] none none)) 0 rfl (Or.inr rfl)
  · exact C8_corrupt_batch_empty.2.1
      (StoreState.mk (GraphConfig.mk "1.0" 2 (7/10)) (GraphIndex.mk 0 1000) [] []
        (Disk.mk [(0, ChunkFile.malformed)] [(0, [1, 0, 0, 0])] none none)) 0 rfl
      (Or.inr ⟨[1, 0, 0, 0], rfl, by decide⟩)
